import Mathlib

/-! # ngsF start-up driver (`ngsF.cpp`, function `main`)

A shallow embedding of the argument checks, the input-file checks, the chunk
and thread set-up, the opening of the input and the output writer of `main`,
followed by the properties proved about them.

Conventions of the embedding.
* C strings are lists of characters; a `NULL` pointer is `none`.
* The integer parameters are natural numbers (`verbose` is an integer); the
  struct that declares their widths lives in `shared.h`. `main` loops over
  the sites with a `uint64_t` counter and over the individuals with a
  `uint16_t` counter, and prints `n_sites`, `max_chunk_size` and `n_chunks`
  with `%ld`: where a width matters, these three are 64-bit unsigned and
  `n_ind` is 16-bit unsigned.
* `double` values are rationals: every value that occurs here is the quotient
  of two machine integers, hence finite and in the normal range of binary64.
* Memory allocation succeeds, and the input file exists and can be opened; its
  byte size is the parameter `st_size`.
* `main` is followed from "Check Arguments" on, the path taken when `-version`
  was not requested.
-/

namespace NgsF

/-! ## IEEE 754 binary64 arithmetic on the values that occur -/

/-- Nearest integer to `x`, ties going to the even neighbour (the default
rounding direction of IEEE 754). -/
def round_half_even (x : ℚ) : ℤ :=
  if x - ⌊x⌋ < 1 / 2 then ⌊x⌋
  else if 1 / 2 < x - ⌊x⌋ then ⌊x⌋ + 1
  else if ⌊x⌋ % 2 = 0 then ⌊x⌋ else ⌊x⌋ + 1

/-- The binary64 value nearest to a non-negative `x` (53 significant bits,
round to nearest, ties to even): with `e = ⌊log₂ x⌋` the significand
`x / 2 ^ (e - 52)` lies in `[2 ^ 52, 2 ^ 53)` and is rounded to an integer.
Exponent range is not modelled (no overflow, no subnormals), which is exact
for `2 ^ (-1022) ≤ x < 2 ^ 1023`. -/
def to_double (x : ℚ) : ℚ :=
  if x ≤ 0 then 0
  else (round_half_even (x * (2 : ℚ) ^ (52 - Int.log 2 x)) : ℚ) * (2 : ℚ) ^ (Int.log 2 x - 52)

/-- The expression `ceil( (double) a / (double) b )` stored into the 64-bit
unsigned `n_chunks`: both conversions and the division round to binary64,
`ceil` is exact, and the result is converted to a 64-bit unsigned integer.
With 64-bit operands and `b > 0` the only value out of its range is `2 ^ 64`
(reached from `a ≥ 2 ^ 64 - 1024`, `b = 1`); C leaves that conversion
undefined and x86-64 delivers 0, which is the reduction modulo `2 ^ 64` taken
here. For `b = 0` the C quotient is infinite or NaN and its conversion is
undefined as well; the properties below that depend on the value take
`b > 0`. -/
def ceil_div_double (a b : ℕ) : ℕ :=
  ⌈to_double (to_double (a : ℚ) / to_double (b : ℚ))⌉₊ % 2 ^ 64

/-! ## Parameters and the events of a run -/

/-- A C string: its characters up to the terminating NUL. -/
abbrev CStr := List Char

/-- The suffix `".glf"` of an uncompressed input. -/
def dot_glf : CStr := ['.', 'g', 'l', 'f']

/-- The suffix `".bgz"` of a BGZIP input. -/
def dot_bgz : CStr := ['.', 'b', 'g', 'z']

/-- The fields of `params` that `main` reads or writes (the struct is declared
in `shared.h`). The file handle and the loaded data are represented by the
events of the run. -/
structure params where
  in_glf : Option CStr
  in_glf_type : Option CStr
  init_values : CStr
  out_file : Option CStr
  n_ind : ℕ
  n_sites : ℕ
  max_chunk_size : ℕ
  n_chunks : ℕ
  chunks_voffset : List ℤ
  approx_EM : Bool
  fast_lkl : Bool
  max_iters : ℕ
  min_epsilon : ℚ
  n_threads : ℕ
  quick : Bool
  version : Bool
  verbose : ℤ
deriving DecidableEq

/-- What a run does to the outside world, as far as the properties below
need it: `stat` on the input path, opening the input (`fopen` or
`bgzf_open`), one `fread` per site, the computation and report of the
initial log-likelihood (`full_HWE_like`), and the EM loop (`do_EM`). -/
inductive Event where
  | stat
  | open_input
  | fread
  | initial_lkl
  | do_EM
deriving DecidableEq, Repr

/-- A run: the events performed, in order, and how it ended (a fatal error
with its message, or the parameters it continues with). -/
structure Run where
  log : List Event
  result : Except String params

/-- Modelled from the spec: `error` is declared in `shared.h` and defined
outside `ngsF.cpp`; a configuration or I/O error is fatal, it is reported and
the process terminates, so nothing after the call is executed. -/
def error {α : Type} (msg : String) : Except String α := Except.error msg

/-- The C library's `strrchr(s, c)` for `c` other than NUL: the suffix of `s`
starting at the last occurrence of `c`, or `none` (NULL) when `c` does not
occur. -/
def strrchr : CStr → Char → Option CStr
  | [], _ => none
  | x :: xs, c =>
    match strrchr xs c with
    | some t => some t
    | none => if x = c then some (x :: xs) else none

/-! ## Check Arguments (lines 59-76) -/

/-- The required-parameter checks. -/
def check_arguments (p : params) : Except String params :=
  match p.in_glf with
  | none => error "GL input file (-glf) missing!"
  | some path =>
    match strrchr path '.' with
    | none => error "invalid file type!"
    | some t =>
      if p.out_file = none then error "output file (-out) missing!"
      else if p.n_ind = 0 then error "number of individuals (-n_ind) missing!"
      else if p.n_sites = 0 then error "number of sites (-n_sites) missing!"
      else Except.ok { p with in_glf_type := some t }

/-! ## Check input files (lines 83-93) -/

/-- The file-size check; `st_size` is the byte size `stat` reports and
`sizeof(double)` is 8. The three divisions are unsigned integer divisions. -/
def check_input_files (st_size : ℕ) (p : params) : Except String Unit :=
  if 1 ≤ p.verbose then
    if p.n_sites = st_size / 8 / p.n_ind / 3 ∧ p.in_glf_type = some dot_glf then Except.ok ()
    else if p.in_glf_type ≠ some dot_glf then Except.ok ()
    else error "wrong number of sites or invalid/corrupt file!"
  else Except.ok ()

/-! ## Chunks and threads (lines 96-114) -/

/-- Adjust max_chunk_size in case of fewer sites. -/
def adjust_chunk_size (p : params) : params :=
  if p.max_chunk_size > p.n_sites then { p with max_chunk_size := p.n_sites } else p

/-- Calculate the total number of chunks and allocate the zeroed chunk index. -/
def calc_n_chunks (p : params) : params :=
  { p with
    n_chunks := ceil_div_double p.n_sites p.max_chunk_size
    chunks_voffset := List.replicate (ceil_div_double p.n_sites p.max_chunk_size) 0 }

/-- Adjust thread number to chunks. -/
def adjust_threads (p : params) : params :=
  if p.n_chunks < p.n_threads then { p with n_threads := p.n_chunks } else p

/-- Lines 96-114 in order. -/
def chunk_setup (p : params) : params :=
  adjust_threads (calc_n_chunks (adjust_chunk_size p))

/-! ## Open input file (lines 117-144) -/

/-- `fread(buf, sizeof(double), count, fh)` on a file of `st_size` bytes read
up to byte `pos`: the number of complete 8-byte items delivered. -/
def fread (st_size pos count : ℕ) : ℕ := min count ((st_size - pos) / 8)

/-- The loop of lines 137-141 with `todo` sites left and the file read up to
byte `pos`: each site takes `n_ind * 3` doubles, a short read is fatal. -/
def read_sites (st_size n_ind : ℕ) : ℕ → ℕ → List Event × Except String Unit
  | 0, _ => ([], Except.ok ())
  | todo + 1, pos =>
    if fread st_size pos (n_ind * 3) ≠ n_ind * 3 then
      ([Event.fread], error "cannot read GLF file!")
    else
      (Event.fread :: (read_sites st_size n_ind todo (pos + n_ind * 3 * 8)).1,
        (read_sites st_size n_ind todo (pos + n_ind * 3 * 8)).2)

/-- Opening the input. `use_bgzf` is the compile-time switch `_USE_BGZF`. The
input file exists with `st_size` bytes and can be opened. With the standard
library the whole file is then read, site by site. -/
def open_input (use_bgzf : Bool) (st_size : ℕ) (p : params) :
    List Event × Except String Unit :=
  if use_bgzf then
    if p.in_glf_type ≠ some dot_bgz then
      ([], error "BGZF library only supports BGZIP files!")
    else ([Event.open_input], Except.ok ())
  else
    if p.in_glf_type ≠ some dot_glf then
      ([], error "Standard library only supports UNCOMPRESSED GLF files!")
    else
      (Event.open_input :: (read_sites st_size p.n_ind p.n_sites 0).1,
        (read_sites st_size p.n_ind p.n_sites 0).2)

/-! ## The run of `main` from "Check Arguments" to `do_EM` (lines 59-174) -/

/-- Start-up: argument checks, input-file checks, chunk and thread set-up,
opening (and, with the standard library, loading) the input. This is the part
of `main` reached when `-version` was not requested. -/
def start_up (use_bgzf : Bool) (st_size : ℕ) (p : params) : Run :=
  match check_arguments p with
  | Except.error msg => ⟨[], Except.error msg⟩
  | Except.ok p1 =>
    match check_input_files st_size p1 with
    | Except.error msg => ⟨[Event.stat], Except.error msg⟩
    | Except.ok _ =>
      match (open_input use_bgzf st_size (chunk_setup p1)).2 with
      | Except.error msg =>
        ⟨Event.stat :: (open_input use_bgzf st_size (chunk_setup p1)).1, Except.error msg⟩
      | Except.ok _ =>
        ⟨Event.stat :: (open_input use_bgzf st_size (chunk_setup p1)).1,
          Except.ok (chunk_setup p1)⟩

/-- Analyze Data (lines 166-174): the initial log-likelihood is computed and
printed under the guard of line 169, then the EM loop runs. -/
def analyze_data (p : params) : List Event :=
  (if 1 ≤ p.verbose ∧ p.fast_lkl = false ∧ p.init_values ≠ ['e'] then
    [Event.initial_lkl] else []) ++ [Event.do_EM]

/-- Lines 59-174: start-up, then the analysis when start-up did not fail. -/
def main_run (use_bgzf : Bool) (st_size : ℕ) (p : params) : Run :=
  match (start_up use_bgzf st_size p).result with
  | Except.error msg => ⟨(start_up use_bgzf st_size p).log, Except.error msg⟩
  | Except.ok q => ⟨(start_up use_bgzf st_size p).log ++ analyze_data q, Except.ok q⟩

/-! ## Print Output (lines 177-189) -/

/-- A line of the output file: the header, or a row with the `%d` index, the
`%f` coefficient (its value, not its decimal rendering) and the text of the
third column. -/
inductive Line where
  | header (text : String)
  | row (ind : ℕ) (indF : ℚ) (loglkl : String)
deriving DecidableEq

/-- The loop of lines 185-186 from counter value `i`: the counter is a
`uint16_t`, so `i++` wraps modulo `2 ^ 16`; the comparison with `n_ind` and
`i + 1` are computed in a wider type. `none` when `fuel` iterations do not
reach the exit of the loop. -/
def print_rows (n_ind : ℕ) (indF : ℕ → ℚ) : ℕ → ℕ → Option (List Line)
  | 0, _ => none
  | fuel + 1, i =>
    if i < n_ind then
      (print_rows n_ind indF fuel ((i + 1) % 2 ^ 16)).map
        (fun rest => Line.row (i + 1) (indF i) "NA" :: rest)
    else some []

/-- A small valid configuration: one individual, one site, input `a.glf`. -/
def small_pars : params where
  in_glf := some ['a', '.', 'g', 'l', 'f']
  in_glf_type := none
  init_values := ['r']
  out_file := some ['o']
  n_ind := 1
  n_sites := 1
  max_chunk_size := 1
  n_chunks := 0
  chunks_voffset := []
  approx_EM := false
  fast_lkl := false
  max_iters := 1
  min_epsilon := 0
  n_threads := 1
  quick := false
  version := false
  verbose := 0

/-! # Properties -/

/-! ## binary64 rounding -/

theorem round_half_even_intCast (z : ℤ) : round_half_even (z : ℚ) = z := by
  simp [round_half_even]

theorem floor_le_round_half_even (x : ℚ) : ⌊x⌋ ≤ round_half_even x := by
  unfold round_half_even
  split_ifs <;> omega

theorem round_half_even_le (x : ℚ) (z : ℤ) (h : x ≤ z) : round_half_even x ≤ z := by
  have hfl : ⌊x⌋ ≤ z := by
    have := Int.floor_le x
    exact_mod_cast (this.trans h)
  by_cases hx : x = ⌊x⌋
  · have h0 : x - ⌊x⌋ < 1 / 2 := by rw [sub_eq_zero.mpr hx]; norm_num
    simp only [round_half_even, if_pos h0]
    exact hfl
  · have hlt : (⌊x⌋ : ℚ) < z := lt_of_lt_of_le (lt_of_le_of_ne (Int.floor_le x) (Ne.symm hx)) h
    have hlt' : ⌊x⌋ < z := by exact_mod_cast hlt
    unfold round_half_even
    split_ifs <;> omega

theorem sub_half_le_round_half_even (x : ℚ) : x - 1 / 2 ≤ round_half_even x := by
  have h1 := Int.lt_floor_add_one x
  unfold round_half_even
  split_ifs with a b c
  · linarith
  · push_cast; linarith
  · linarith
  · push_cast; linarith

theorem to_double_pos (x : ℚ) (hx : 0 < x) : 0 < to_double x := by
  have h2 : (1 : ℕ) < 2 := by norm_num
  have hlog : ((2 : ℕ) : ℚ) ^ Int.log 2 x ≤ x := Int.zpow_log_le_self h2 hx
  have hpos : (0 : ℚ) < (2 : ℚ) ^ (52 - Int.log 2 x) := zpow_pos (by norm_num) _
  have hscaled : (1 : ℚ) ≤ x * (2 : ℚ) ^ (52 - Int.log 2 x) := by
    have : (2 : ℚ) ^ Int.log 2 x * (2 : ℚ) ^ (52 - Int.log 2 x) = (2 : ℚ) ^ (52 : ℤ) := by
      rw [← zpow_add₀ (by norm_num : (2 : ℚ) ≠ 0)]; congr 1; ring
    have h52 : (1 : ℚ) ≤ (2 : ℚ) ^ (52 : ℤ) := by norm_num
    calc (1 : ℚ) ≤ (2 : ℚ) ^ (52 : ℤ) := h52
      _ = (2 : ℚ) ^ Int.log 2 x * (2 : ℚ) ^ (52 - Int.log 2 x) := this.symm
      _ ≤ x * (2 : ℚ) ^ (52 - Int.log 2 x) := by
        apply mul_le_mul_of_nonneg_right _ hpos.le
        exact_mod_cast hlog
  have hfloor : (1 : ℤ) ≤ ⌊x * (2 : ℚ) ^ (52 - Int.log 2 x)⌋ := by
    rw [Int.le_floor]; exact_mod_cast hscaled
  have hr : (1 : ℤ) ≤ round_half_even (x * (2 : ℚ) ^ (52 - Int.log 2 x)) :=
    hfloor.trans (floor_le_round_half_even _)
  have hr' : (0 : ℚ) < (round_half_even (x * (2 : ℚ) ^ (52 - Int.log 2 x)) : ℚ) := by
    exact_mod_cast hr
  simp only [to_double, if_neg (not_le.mpr hx)]
  exact mul_pos hr' (zpow_pos (by norm_num) _)

theorem to_double_of_scaled_int (x : ℚ) (hx : 0 < x) (z : ℤ)
    (h : x * (2 : ℚ) ^ (52 - Int.log 2 x) = z) : to_double x = x := by
  simp only [to_double, if_neg (not_le.mpr hx)]
  rw [h, round_half_even_intCast, ← h, mul_assoc, ← zpow_add₀ (by norm_num : (2 : ℚ) ≠ 0)]
  simp


theorem to_double_natCast (k : ℕ) (hk : k ≤ 2 ^ 53) : to_double (k : ℚ) = k := by
  rcases Nat.eq_zero_or_pos k with h0 | hpos
  · subst h0; simp [to_double]
  have hx : (0 : ℚ) < (k : ℚ) := by exact_mod_cast hpos
  rcases Nat.eq_or_lt_of_le hk with heq | hlt
  · subst heq
    have hlog : Int.log 2 (((2 ^ 53 : ℕ) : ℚ)) = 53 := by
      rw [Int.log_natCast]
      have : Nat.log 2 (2 ^ 53) = 53 := Nat.log_pow (by norm_num) 53
      rw [this]; rfl
    apply to_double_of_scaled_int _ hx (2 ^ 52)
    rw [hlog]; norm_num
  · have hlog : Int.log 2 ((k : ℚ)) = (Nat.log 2 k : ℤ) := Int.log_natCast 2 k
    have hl : Nat.log 2 k < 53 := Nat.log_lt_of_lt_pow (by omega) hlt
    apply to_double_of_scaled_int _ hx ((k * 2 ^ (52 - Nat.log 2 k) : ℕ) : ℤ)
    rw [hlog]
    have : (52 : ℤ) - (Nat.log 2 k : ℤ) = ((52 - Nat.log 2 k : ℕ) : ℤ) := by omega
    rw [this, zpow_natCast]
    push_cast
    ring

theorem ceil_to_double_div (n m : ℕ) (hm : 0 < m) (hmn : m ≤ n) (hn : n ≤ 2 ^ 53) :
    ⌈to_double ((n : ℚ) / m)⌉₊ = ⌈(n : ℚ) / m⌉₊ := by
  have hmq : (0 : ℚ) < (m : ℚ) := by exact_mod_cast hm
  by_cases hdvd : m ∣ n
  · obtain ⟨k, rfl⟩ := hdvd
    have hk : k ≤ 2 ^ 53 := le_trans (Nat.le_mul_of_pos_left k hm) hn
    have : ((m * k : ℕ) : ℚ) / m = (k : ℚ) := by
      push_cast; field_simp
    rw [this, to_double_natCast k hk]
  · -- n = m * d + ρ with 1 ≤ ρ < m
    set d := n / m with hd
    set ρ := n % m with hρ
    have hdecomp : m * d + ρ = n := Nat.div_add_mod n m
    have hρpos : 0 < ρ := by
      rcases Nat.eq_zero_or_pos ρ with h | h
      · exact absurd (Nat.dvd_of_mod_eq_zero h) hdvd
      · exact h
    have hρlt : ρ < m := Nat.mod_lt n hm
    have hdpos : 0 < d := Nat.div_pos hmn hm
    have hq : (n : ℚ) / m = d + (ρ : ℚ) / m := by
      rw [← hdecomp]; push_cast; field_simp; ring
    have hqpos : (0 : ℚ) < (n : ℚ) / m := by
      apply div_pos _ hmq
      exact_mod_cast (lt_of_lt_of_le hm hmn)
    have hq1 : (1 : ℚ) ≤ (n : ℚ) / m := by
      rw [le_div_iff₀ hmq]; simpa using (by exact_mod_cast hmn : (m : ℚ) ≤ n)
    -- the exponent
    have hlog : Int.log 2 ((n : ℚ) / m) = (Nat.log 2 d : ℤ) := by
      rw [Int.log_of_one_le_right 2 hq1, Nat.floor_div_eq_div]
    set e := Nat.log 2 d with he
    have hpow : 2 ^ e ≤ d := Nat.pow_log_le_self 2 (by omega)
    have hlt53 : m * 2 ^ e < 2 ^ 53 := by
      calc m * 2 ^ e ≤ m * d := Nat.mul_le_mul_left m hpow
        _ < n := by omega
        _ ≤ 2 ^ 53 := hn
    have he52 : e ≤ 52 := by
      by_contra hcon
      have : 2 ^ 53 ≤ 2 ^ e := Nat.pow_le_pow_right (by norm_num) (by omega)
      have : 2 ^ 53 ≤ m * 2 ^ e := le_trans this (Nat.le_mul_of_pos_left _ hm)
      omega
    set s := 52 - e with hs
    have hm2P : m < 2 * 2 ^ s := by
      have h53 : 2 ^ 53 = 2 ^ e * (2 * 2 ^ s) := by
        rw [← pow_succ', ← pow_add]; congr 1; omega
      rw [h53, mul_comm] at hlt53
      exact lt_of_mul_lt_mul_left hlt53 (Nat.zero_le _)
    have hPpos : (0 : ℚ) < (2 : ℚ) ^ s := pow_pos (by norm_num) _
    have hz1 : (52 : ℤ) - (e : ℤ) = (s : ℤ) := by omega
    have hz2 : (e : ℤ) - 52 = -(s : ℤ) := by omega
    have hval : to_double ((n : ℚ) / m)
        = (round_half_even ((n : ℚ) / m * (2 : ℚ) ^ s) : ℚ) / (2 : ℚ) ^ s := by
      unfold to_double
      rw [if_neg (not_le.mpr hqpos), hlog, hz1, hz2, zpow_neg, zpow_natCast]
      exact (div_eq_mul_inv _ _).symm
    -- exact ceiling is d + 1
    have hceil : ⌈(n : ℚ) / m⌉₊ = d + 1 := by
      rw [Nat.ceil_eq_iff (by omega)]
      constructor
      · rw [hq]; simp only [Nat.add_sub_cancel]
        have : (0 : ℚ) < (ρ : ℚ) / m := div_pos (by exact_mod_cast hρpos) hmq
        linarith
      · rw [hq]; push_cast
        have : (ρ : ℚ) / m ≤ 1 := by
          rw [div_le_one hmq]; exact_mod_cast hρlt.le
        linarith
    rw [hceil, Nat.ceil_eq_iff (by omega), hval]
    simp only [Nat.add_sub_cancel]
    constructor
    · -- d < r / P
      rw [lt_div_iff₀ hPpos]
      have hge := sub_half_le_round_half_even ((n : ℚ) / m * (2 : ℚ) ^ s)
      have hfrac : (1 : ℚ) / 2 < (ρ : ℚ) / m * (2 : ℚ) ^ s := by
        have h1 : (1 : ℚ) ≤ ρ := by exact_mod_cast hρpos
        have h2 : (m : ℚ) < 2 * (2 : ℚ) ^ s := by exact_mod_cast hm2P
        rw [div_mul_eq_mul_div, lt_div_iff₀ hmq]
        nlinarith
      have hsplit : (n : ℚ) / m * (2 : ℚ) ^ s
          = d * (2 : ℚ) ^ s + (ρ : ℚ) / m * (2 : ℚ) ^ s := by
        rw [hq]; ring
      linarith
    · -- r / P ≤ d + 1
      rw [div_le_iff₀ hPpos]
      have hle : (n : ℚ) / m * (2 : ℚ) ^ s ≤ (((d + 1) * 2 ^ s : ℕ) : ℤ) := by
        push_cast
        apply mul_le_mul_of_nonneg_right _ hPpos.le
        rw [hq]
        have : (ρ : ℚ) / m ≤ 1 := by
          rw [div_le_one hmq]; exact_mod_cast hρlt.le
        linarith
      have hround := round_half_even_le _ _ hle
      have hcast : (round_half_even ((n : ℚ) / m * (2 : ℚ) ^ s) : ℚ)
          ≤ ((((d + 1) * 2 ^ s : ℕ) : ℤ) : ℚ) := Int.cast_le.mpr hround
      push_cast at hcast
      push_cast
      exact hcast

theorem round_half_even_le_add_half (x : ℚ) : (round_half_even x : ℚ) ≤ x + 1 / 2 := by
  have h1 := Int.floor_le x
  unfold round_half_even
  split_ifs with a b c
  · linarith
  · push_cast; linarith
  · linarith
  · push_cast; linarith

/-- Rounding does not cross a binary64 value `M * 2 ^ j` from below. -/
theorem to_double_le_of_le (x : ℚ) (hx : 0 < x) (M j : ℕ) (hM : M < 2 ^ 53)
    (h : x ≤ (M : ℚ) * (2 : ℚ) ^ j) : to_double x ≤ (M : ℚ) * (2 : ℚ) ^ j := by
  have h2 : (1 : ℕ) < 2 := by norm_num
  have hlog : ((2 : ℕ) : ℚ) ^ Int.log 2 x ≤ x := Int.zpow_log_le_self h2 hx
  have hlt : x < ((2 : ℕ) : ℚ) ^ ((53 + j : ℕ) : ℤ) := by
    have hMq : (M : ℚ) < (2 : ℚ) ^ 53 := by exact_mod_cast hM
    have hj : (0 : ℚ) < (2 : ℚ) ^ j := pow_pos (by norm_num) _
    calc x ≤ (M : ℚ) * (2 : ℚ) ^ j := h
      _ < (2 : ℚ) ^ 53 * (2 : ℚ) ^ j := mul_lt_mul_of_pos_right hMq hj
      _ = ((2 : ℕ) : ℚ) ^ ((53 + j : ℕ) : ℤ) := by
        rw [zpow_natCast, pow_add]; norm_num
  have he : Int.log 2 x < ((53 + j : ℕ) : ℤ) := (Int.lt_zpow_iff_log_lt h2 hx).mp hlt
  obtain ⟨t, ht⟩ : ∃ t : ℕ, (j : ℤ) + (52 - Int.log 2 x) = (t : ℤ) :=
    ⟨((j : ℤ) + (52 - Int.log 2 x)).toNat, by
      rw [Int.toNat_of_nonneg]; push_cast at he; omega⟩
  have hpos : (0 : ℚ) < (2 : ℚ) ^ (52 - Int.log 2 x) := zpow_pos (by norm_num) _
  have hpos' : (0 : ℚ) < (2 : ℚ) ^ (Int.log 2 x - 52) := zpow_pos (by norm_num) _
  have hscale : (2 : ℚ) ^ j * (2 : ℚ) ^ (52 - Int.log 2 x) = (2 : ℚ) ^ t := by
    rw [← zpow_natCast, ← zpow_add₀ (by norm_num : (2 : ℚ) ≠ 0), ht, zpow_natCast]
  have hy : x * (2 : ℚ) ^ (52 - Int.log 2 x) ≤ (((M * 2 ^ t : ℕ) : ℤ) : ℚ) := by
    push_cast
    calc x * (2 : ℚ) ^ (52 - Int.log 2 x)
        ≤ (M : ℚ) * (2 : ℚ) ^ j * (2 : ℚ) ^ (52 - Int.log 2 x) :=
          mul_le_mul_of_nonneg_right h hpos.le
      _ = (M : ℚ) * (2 : ℚ) ^ t := by rw [mul_assoc, hscale]
  have hround := round_half_even_le _ _ hy
  have hcast : (round_half_even (x * (2 : ℚ) ^ (52 - Int.log 2 x)) : ℚ)
      ≤ (((M * 2 ^ t : ℕ) : ℤ) : ℚ) := Int.cast_le.mpr hround
  push_cast at hcast
  unfold to_double
  rw [if_neg (not_le.mpr hx)]
  calc (round_half_even (x * (2 : ℚ) ^ (52 - Int.log 2 x)) : ℚ) * (2 : ℚ) ^ (Int.log 2 x - 52)
      ≤ (M : ℚ) * (2 : ℚ) ^ t * (2 : ℚ) ^ (Int.log 2 x - 52) :=
        mul_le_mul_of_nonneg_right hcast hpos'.le
    _ = (M : ℚ) * ((2 : ℚ) ^ j * (2 : ℚ) ^ (52 - Int.log 2 x) * (2 : ℚ) ^ (Int.log 2 x - 52)) := by
        rw [hscale]; ring
    _ = (M : ℚ) * (2 : ℚ) ^ j := by
        rw [mul_assoc ((2 : ℚ) ^ j), ← zpow_add₀ (by norm_num : (2 : ℚ) ≠ 0)]
        simp

/-- Rounding does not take a value of at least 1 below 1. -/
theorem one_le_to_double (x : ℚ) (h : 1 ≤ x) : 1 ≤ to_double x := by
  have hx : 0 < x := lt_of_lt_of_le one_pos h
  have h2 : (1 : ℕ) < 2 := by norm_num
  have hlog : ((2 : ℕ) : ℚ) ^ Int.log 2 x ≤ x := Int.zpow_log_le_self h2 hx
  have he : 0 ≤ Int.log 2 x := by
    rw [Int.log_of_one_le_right 2 h]; exact Int.natCast_nonneg _
  have hpos : (0 : ℚ) < (2 : ℚ) ^ (52 - Int.log 2 x) := zpow_pos (by norm_num) _
  have hpos' : (0 : ℚ) < (2 : ℚ) ^ (Int.log 2 x - 52) := zpow_pos (by norm_num) _
  have h52 : (2 : ℚ) ^ Int.log 2 x * (2 : ℚ) ^ (52 - Int.log 2 x) = (((2 ^ 52 : ℕ) : ℤ) : ℚ) := by
    rw [← zpow_add₀ (by norm_num : (2 : ℚ) ≠ 0)]
    have : Int.log 2 x + (52 - Int.log 2 x) = ((52 : ℕ) : ℤ) := by push_cast; ring
    rw [this, zpow_natCast]; push_cast; rfl
  have hy : (((2 ^ 52 : ℕ) : ℤ) : ℚ) ≤ x * (2 : ℚ) ^ (52 - Int.log 2 x) := by
    rw [← h52]
    apply mul_le_mul_of_nonneg_right _ hpos.le
    exact_mod_cast hlog
  have hfloor : ((2 ^ 52 : ℕ) : ℤ) ≤ ⌊x * (2 : ℚ) ^ (52 - Int.log 2 x)⌋ := Int.le_floor.mpr hy
  have hr : ((2 ^ 52 : ℕ) : ℤ) ≤ round_half_even (x * (2 : ℚ) ^ (52 - Int.log 2 x)) :=
    hfloor.trans (floor_le_round_half_even _)
  have hr' : (((2 ^ 52 : ℕ) : ℤ) : ℚ) ≤ (round_half_even (x * (2 : ℚ) ^ (52 - Int.log 2 x)) : ℚ) :=
    Int.cast_le.mpr hr
  have hone : (1 : ℚ) ≤ (2 : ℚ) ^ Int.log 2 x := one_le_zpow₀ (by norm_num) he
  unfold to_double
  rw [if_neg (not_le.mpr hx)]
  calc (1 : ℚ) ≤ (2 : ℚ) ^ Int.log 2 x := hone
    _ = (((2 ^ 52 : ℕ) : ℤ) : ℚ) * (2 : ℚ) ^ (Int.log 2 x - 52) := by
        rw [← h52, mul_assoc, ← zpow_add₀ (by norm_num : (2 : ℚ) ≠ 0)]
        simp
    _ ≤ _ := mul_le_mul_of_nonneg_right hr' hpos'.le

/-- A 64-bit value below `2 ^ 64 - 1024` converts to a double of at most
`2 ^ 64 - 2048`, the largest double below `2 ^ 64`. -/
theorem to_double_natCast_le (n : ℕ) (hn : n < 2 ^ 64 - 1024) :
    to_double (n : ℚ) ≤ ((2 ^ 53 - 1 : ℕ) : ℚ) * (2 : ℚ) ^ 11 := by
  rcases Nat.eq_zero_or_pos n with h0 | hpos
  · subst h0
    simp only [to_double, Nat.cast_zero, le_refl, if_true]
    positivity
  have hx : (0 : ℚ) < (n : ℚ) := by exact_mod_cast hpos
  rcases Nat.lt_or_ge n (2 ^ 63) with hlt | hge
  · have h63 : (n : ℚ) ≤ ((2 ^ 52 : ℕ) : ℚ) * (2 : ℚ) ^ 11 := by
      have : n ≤ 2 ^ 52 * 2 ^ 11 := by omega
      exact_mod_cast this
    have := to_double_le_of_le _ hx (2 ^ 52) 11 (by norm_num) h63
    refine this.trans ?_
    norm_num
  · have hlog : Int.log 2 ((n : ℚ)) = 63 := by
      rw [Int.log_natCast]
      have : Nat.log 2 n = 63 :=
        Nat.log_eq_of_pow_le_of_lt_pow hge (by omega)
      rw [this]; rfl
    have hnq : (n : ℚ) < 2 ^ 64 - 1024 := by
      have : n + 1024 < 2 ^ 64 := by omega
      have h' : ((n + 1024 : ℕ) : ℚ) < ((2 ^ 64 : ℕ) : ℚ) := by exact_mod_cast this
      push_cast at h'
      linarith
    have hy : (n : ℚ) * (2 : ℚ) ^ ((52 : ℤ) - 63) + 1 / 2 < (((2 ^ 53 : ℕ) : ℤ) : ℚ) := by
      have : (2 : ℚ) ^ ((52 : ℤ) - 63) = 1 / 2048 := by norm_num
      rw [this]; push_cast; linarith
    have hr : round_half_even ((n : ℚ) * (2 : ℚ) ^ ((52 : ℤ) - 63)) < ((2 ^ 53 : ℕ) : ℤ) := by
      have := lt_of_le_of_lt (round_half_even_le_add_half _) hy
      exact_mod_cast this
    have hr' : round_half_even ((n : ℚ) * (2 : ℚ) ^ ((52 : ℤ) - 63)) ≤ ((2 ^ 53 - 1 : ℕ) : ℤ) := by
      have : ((2 ^ 53 - 1 : ℕ) : ℤ) = ((2 ^ 53 : ℕ) : ℤ) - 1 := by norm_num
      omega
    have hc : (round_half_even ((n : ℚ) * (2 : ℚ) ^ ((52 : ℤ) - 63)) : ℚ)
        ≤ (((2 ^ 53 - 1 : ℕ) : ℤ) : ℚ) := Int.cast_le.mpr hr'
    unfold to_double
    rw [if_neg (not_le.mpr hx), hlog]
    have h11 : (2 : ℚ) ^ ((63 : ℤ) - 52) = (2 : ℚ) ^ 11 := by norm_num
    rw [h11]
    have : (0 : ℚ) ≤ (2 : ℚ) ^ 11 := by positivity
    have := mul_le_mul_of_nonneg_right hc this
    simpa using this

/-! ## The chunk count -/

theorem ceil_div_double_exact (n m : ℕ) (hm : 0 < m) (hmn : m ≤ n) (hn : n ≤ 2 ^ 53) :
    ceil_div_double n m = ⌈(n : ℚ) / m⌉₊ := by
  have hmq : (0 : ℚ) < (m : ℚ) := by exact_mod_cast hm
  have hle : ⌈(n : ℚ) / m⌉₊ ≤ n := by
    rw [Nat.ceil_le, div_le_iff₀ hmq]
    have : n * 1 ≤ n * m := Nat.mul_le_mul_left n hm
    have h' : ((n * 1 : ℕ) : ℚ) ≤ ((n * m : ℕ) : ℚ) := by exact_mod_cast this
    push_cast at h'
    linarith
  unfold ceil_div_double
  rw [to_double_natCast n hn, to_double_natCast m (hmn.trans hn),
    ceil_to_double_div n m hm hmn hn]
  exact Nat.mod_eq_of_lt (lt_of_le_of_lt (hle.trans hn) (by norm_num))

/-- The value of line 104 before its conversion to an integer is at most
`2 ^ 64 - 2048` when `n_sites < 2 ^ 64 - 1024`, so the conversion is exact. -/
theorem ceil_to_double_le (n m : ℕ) (hn : 0 < n) (hm : 0 < m) (hn64 : n < 2 ^ 64 - 1024) :
    0 < ⌈to_double (to_double (n : ℚ) / to_double (m : ℚ))⌉₊
      ∧ ⌈to_double (to_double (n : ℚ) / to_double (m : ℚ))⌉₊ ≤ (2 ^ 53 - 1) * 2 ^ 11 := by
  have h1 : (0 : ℚ) < to_double (n : ℚ) := to_double_pos _ (by exact_mod_cast hn)
  have h2 : (1 : ℚ) ≤ to_double (m : ℚ) :=
    one_le_to_double _ (by exact_mod_cast Nat.one_le_iff_ne_zero.mpr hm.ne')
  have hB := to_double_natCast_le n hn64
  have hqpos : (0 : ℚ) < to_double (n : ℚ) / to_double (m : ℚ) :=
    div_pos h1 (lt_of_lt_of_le one_pos h2)
  have hq : to_double (n : ℚ) / to_double (m : ℚ) ≤ to_double (n : ℚ) := div_le_self h1.le h2
  have h3 := to_double_pos _ hqpos
  have h4 := to_double_le_of_le _ hqpos (2 ^ 53 - 1) 11 (by norm_num) (hq.trans hB)
  refine ⟨Nat.ceil_pos.mpr h3, Nat.ceil_le.mpr (h4.trans (le_of_eq ?_))⟩
  norm_num

theorem ceil_div_double_pos (n m : ℕ) (hn : 0 < n) (hm : 0 < m) (hn64 : n < 2 ^ 64 - 1024) :
    1 ≤ ceil_div_double n m := by
  obtain ⟨hpos, hle⟩ := ceil_to_double_le n m hn hm hn64
  unfold ceil_div_double
  rw [Nat.mod_eq_of_lt (lt_of_le_of_lt hle (by norm_num))]
  exact hpos

theorem ceil_div_double_of_value (a b k : ℕ)
    (h : to_double (to_double (a : ℚ) / to_double (b : ℚ)) = (k : ℚ)) :
    ceil_div_double a b = k % 2 ^ 64 := by
  unfold ceil_div_double
  rw [h, Nat.ceil_natCast]

theorem ceil_div_double_self (n : ℕ) (hn : 0 < n) : ceil_div_double n n = 1 := by
  unfold ceil_div_double
  have h1 : (0 : ℚ) < to_double (n : ℚ) := to_double_pos _ (by exact_mod_cast hn)
  rw [div_self h1.ne']
  have : to_double 1 = 1 := by
    have := to_double_natCast 1 (by norm_num)
    simpa using this
  rw [this]; simp

theorem ceil_div_double_two_pow_53_succ : ceil_div_double (2 ^ 53 + 1) 1 = 2 ^ 53 := by
  have h1 : to_double ((1 : ℕ) : ℚ) = 1 := by
    simpa using to_double_natCast 1 (by norm_num)
  have hlog : Int.log 2 (((2 ^ 53 + 1 : ℕ) : ℚ)) = 53 := by
    rw [Int.log_natCast]
    have : Nat.log 2 (2 ^ 53 + 1) = 53 :=
      Nat.log_eq_of_pow_le_of_lt_pow (by norm_num) (by norm_num)
    rw [this]; rfl
  have hfloor : ⌊((2 ^ 53 + 1 : ℕ) : ℚ) * (2 : ℚ) ^ ((52 : ℤ) - 53)⌋ = 2 ^ 52 := by
    rw [Int.floor_eq_iff]; norm_num
  have hbig : to_double (((2 ^ 53 + 1 : ℕ) : ℚ)) = ((2 ^ 53 : ℕ) : ℚ) := by
    unfold to_double
    rw [if_neg (by norm_num), hlog]
    unfold round_half_even
    rw [hfloor]
    norm_num
  have hq : to_double (to_double (((2 ^ 53 + 1 : ℕ) : ℚ)) / to_double ((1 : ℕ) : ℚ))
      = ((2 ^ 53 : ℕ) : ℚ) := by
    rw [hbig, h1, div_one, to_double_natCast _ le_rfl]
  exact (ceil_div_double_of_value _ _ _ hq).trans
    (Nat.mod_eq_of_lt (Nat.pow_lt_pow_right (by norm_num) (by norm_num)))

/-- The exact ceiling of a quotient of naturals, in integer arithmetic. -/
theorem ceil_div_eq (n m : ℕ) (hm : 0 < m) : ⌈(n : ℚ) / m⌉₊ = (n + m - 1) / m := by
  have hmq : (0 : ℚ) < (m : ℚ) := by exact_mod_cast hm
  apply le_antisymm
  · rw [Nat.ceil_le, div_le_iff₀ hmq]
    have h := Nat.lt_div_mul_add (a := n + m - 1) hm
    have : n ≤ (n + m - 1) / m * m := by omega
    exact_mod_cast this
  · rw [Nat.div_le_iff_le_mul_add_pred hm]
    have h : (n : ℚ) ≤ ⌈(n : ℚ) / m⌉₊ * m := by
      rw [← div_le_iff₀ hmq]; exact Nat.le_ceil _
    have h' : n ≤ ⌈(n : ℚ) / m⌉₊ * m := by exact_mod_cast h
    rw [mul_comm]; omega

/-! ## Claims on the chunk and thread set-up -/

theorem chunk_setup_n_sites (p : params) : (chunk_setup p).n_sites = p.n_sites := by
  unfold chunk_setup adjust_threads calc_n_chunks adjust_chunk_size
  split_ifs <;> rfl

theorem chunk_setup_max_chunk_size (p : params) :
    (chunk_setup p).max_chunk_size = min p.max_chunk_size p.n_sites := by
  unfold chunk_setup adjust_threads calc_n_chunks adjust_chunk_size
  split_ifs with h1 h2 h3 <;> simp <;> omega

theorem chunk_setup_n_chunks (p : params) :
    (chunk_setup p).n_chunks = ceil_div_double p.n_sites (min p.max_chunk_size p.n_sites) := by
  unfold chunk_setup adjust_threads calc_n_chunks adjust_chunk_size
  split_ifs with h1 h2 h3 <;> simp <;> congr 1 <;> omega

/-- C1, as amended. For `0 < n_sites ≤ 2 ^ 53` and `max_chunk_size > 0` the
chunk count computed at start-up (by converting both operands to double,
dividing and applying ceil) is the exact integer ceiling of
`n_sites / max_chunk_size`, for the configured `max_chunk_size` as well as for
the adjusted one. -/
theorem n_chunks_exact_ceiling (p : params) (hs : 0 < p.n_sites) (hs53 : p.n_sites ≤ 2 ^ 53)
    (hc : 0 < p.max_chunk_size) :
    (chunk_setup p).n_chunks
        = ⌈to_double (to_double ((adjust_chunk_size p).n_sites : ℚ)
            / to_double ((adjust_chunk_size p).max_chunk_size : ℚ))⌉₊
      ∧ (chunk_setup p).n_chunks = ⌈(p.n_sites : ℚ) / p.max_chunk_size⌉₊
      ∧ (chunk_setup p).n_chunks = (p.n_sites + p.max_chunk_size - 1) / p.max_chunk_size
      ∧ (chunk_setup p).n_chunks
          = ⌈(p.n_sites : ℚ) / (adjust_chunk_size p).max_chunk_size⌉₊
      ∧ (chunk_setup p).n_chunks
          = (p.n_sites + (adjust_chunk_size p).max_chunk_size - 1)
              / (adjust_chunk_size p).max_chunk_size := by
  have hadj : (adjust_chunk_size p).max_chunk_size = min p.max_chunk_size p.n_sites := by
    unfold adjust_chunk_size; split_ifs <;> simp <;> omega
  have hm : 0 < min p.max_chunk_size p.n_sites := by
    rw [lt_min_iff]; exact ⟨hc, hs⟩
  have hexact : (chunk_setup p).n_chunks
      = ⌈(p.n_sites : ℚ) / (min p.max_chunk_size p.n_sites : ℕ)⌉₊ := by
    rw [chunk_setup_n_chunks]
    exact ceil_div_double_exact _ _ hm (min_le_right _ _) hs53
  have hsame : ⌈(p.n_sites : ℚ) / (min p.max_chunk_size p.n_sites : ℕ)⌉₊
      = ⌈(p.n_sites : ℚ) / p.max_chunk_size⌉₊ := by
    rcases le_total p.max_chunk_size p.n_sites with h | h
    · rw [min_eq_left h]
    · rw [min_eq_right h, div_self (by exact_mod_cast hs.ne')]
      have hcq : (0 : ℚ) < (p.max_chunk_size : ℚ) := by exact_mod_cast hc
      have hsq : (0 : ℚ) < (p.n_sites : ℚ) := by exact_mod_cast hs
      rw [Nat.ceil_one]
      symm
      rw [Nat.ceil_eq_iff (by norm_num)]
      refine ⟨by simpa using div_pos hsq hcq, ?_⟩
      rw [div_le_iff₀ hcq]
      simpa using (by exact_mod_cast h : (p.n_sites : ℚ) ≤ p.max_chunk_size)
  have hraw : (chunk_setup p).n_chunks
      = ⌈to_double (to_double ((adjust_chunk_size p).n_sites : ℚ)
          / to_double ((adjust_chunk_size p).max_chunk_size : ℚ))⌉₊ := by
    have hns : (adjust_chunk_size p).n_sites = p.n_sites := by
      unfold adjust_chunk_size; split_ifs <;> rfl
    rw [hexact, hns, hadj, to_double_natCast _ hs53,
      to_double_natCast _ ((min_le_right _ _).trans hs53),
      ceil_to_double_div _ _ hm (min_le_right _ _) hs53]
  refine ⟨hraw, ?_, ?_, ?_, ?_⟩
  · rw [hexact, hsame]
  · rw [hexact, hsame, ceil_div_eq _ _ hc]
  · rw [hexact, hadj]
  · rw [hexact, hadj, ceil_div_eq _ _ hm]

/-- Witness of C1 (amended): ten sites in chunks of at most three. -/
theorem n_chunks_exact_ceiling_witness :
    ({ small_pars with n_sites := 10, max_chunk_size := 3 } : params).n_sites ≤ 2 ^ 53
      ∧ (chunk_setup { small_pars with n_sites := 10, max_chunk_size := 3 }).n_chunks
          = (10 + 3 - 1) / 3 :=
  ⟨by decide,
    (n_chunks_exact_ceiling { small_pars with n_sites := 10, max_chunk_size := 3 }
      (by decide) (by decide) (by decide)).2.2.1⟩

/-- Counterexample to C1 as stated: with `n_sites = 2 ^ 53 + 1` and
`max_chunk_size = 1` the conversion to double rounds `n_sites` to `2 ^ 53`, so
the computed chunk count is `2 ^ 53`, one less than the exact ceiling. -/
theorem n_chunks_not_exact_above_two_pow_53 :
    (chunk_setup { small_pars with n_sites := 2 ^ 53 + 1, max_chunk_size := 1 }).n_chunks
        = 2 ^ 53
      ∧ (chunk_setup { small_pars with n_sites := 2 ^ 53 + 1, max_chunk_size := 1 }).n_chunks
        ≠ (2 ^ 53 + 1 + 1 - 1) / 1
      ∧ (chunk_setup { small_pars with n_sites := 2 ^ 53 + 1, max_chunk_size := 1 }).n_chunks
        ≠ ⌈((2 ^ 53 + 1 : ℕ) : ℚ) / (1 : ℕ)⌉₊ := by
  have h : (chunk_setup { small_pars with n_sites := 2 ^ 53 + 1, max_chunk_size := 1 }).n_chunks
      = 2 ^ 53 := by
    rw [chunk_setup_n_chunks]
    have : min ({ small_pars with n_sites := 2 ^ 53 + 1, max_chunk_size := 1 } : params).max_chunk_size
        ({ small_pars with n_sites := 2 ^ 53 + 1, max_chunk_size := 1 } : params).n_sites = 1 := by
      decide
    rw [this]
    exact ceil_div_double_two_pow_53_succ
  refine ⟨h, ?_, ?_⟩
  · rw [h]; decide
  · rw [h, ceil_div_eq _ _ (by norm_num)]; decide

/-- A count `k` with `(k - 1) * m < n ≤ k * m` splits `[0, n)` into `k`
non-empty, pairwise disjoint ranges `[c * m, min ((c + 1) * m) n)`. -/
theorem ranges_partition (n m k : ℕ) (hm : 0 < m) (hlo : (k - 1) * m < n) (hhi : n ≤ k * m) :
    (∀ c, c < k → c * m < min ((c + 1) * m) n)
      ∧ (∀ c c', c < k → c' < k → c ≠ c' → ∀ s,
          ¬ ((c * m ≤ s ∧ s < min ((c + 1) * m) n) ∧ (c' * m ≤ s ∧ s < min ((c' + 1) * m) n)))
      ∧ (∀ s, s < n ↔ ∃ c, c < k ∧ c * m ≤ s ∧ s < min ((c + 1) * m) n) := by
  refine ⟨?_, ?_, ?_⟩
  · intro c hc
    rw [lt_min_iff]
    refine ⟨by nlinarith, ?_⟩
    have : c * m ≤ (k - 1) * m := Nat.mul_le_mul_right m (by omega)
    omega
  · intro c c' _ _ hne s ⟨⟨h1, h2⟩, ⟨h3, h4⟩⟩
    rw [lt_min_iff] at h2 h4
    rcases Nat.lt_or_gt_of_ne hne with h | h
    · have : (c + 1) * m ≤ c' * m := Nat.mul_le_mul_right m h
      omega
    · have : (c' + 1) * m ≤ c * m := Nat.mul_le_mul_right m h
      omega
  · intro s
    constructor
    · intro hs
      refine ⟨s / m, ?_, Nat.div_mul_le_self s m, ?_⟩
      · have h1 : s / m * m ≤ s := Nat.div_mul_le_self s m
        by_contra hcon
        have : k * m ≤ s / m * m := Nat.mul_le_mul_right m (by omega)
        omega
      · rw [lt_min_iff]
        refine ⟨?_, hs⟩
        have := Nat.lt_div_mul_add (a := s) hm
        rw [Nat.add_mul, one_mul]
        exact this
    · rintro ⟨c, _, _, h⟩
      exact (lt_min_iff.mp h).2

/-- C2, as amended. For `0 < n_sites ≤ 2 ^ 53` and `max_chunk_size > 0`, with
`m` the adjusted `max_chunk_size` and `n_chunks` as computed at start-up, the
ranges `[c * m, min ((c + 1) * m) n_sites)`, `c < n_chunks`, are non-empty,
pairwise disjoint and cover exactly `[0, n_sites)`; moreover
`(n_chunks - 1) * m < n_sites ≤ n_chunks * m` and `1 ≤ n_chunks ≤ n_sites`. -/
theorem chunks_partition_sites (p : params) (hs : 0 < p.n_sites) (hs53 : p.n_sites ≤ 2 ^ 53)
    (hc : 0 < p.max_chunk_size) :
    (∀ c, c < (chunk_setup p).n_chunks →
        c * (chunk_setup p).max_chunk_size
          < min ((c + 1) * (chunk_setup p).max_chunk_size) (chunk_setup p).n_sites)
      ∧ (∀ c c', c < (chunk_setup p).n_chunks → c' < (chunk_setup p).n_chunks → c ≠ c' →
          ∀ s, ¬ ((c * (chunk_setup p).max_chunk_size ≤ s
              ∧ s < min ((c + 1) * (chunk_setup p).max_chunk_size) (chunk_setup p).n_sites)
            ∧ (c' * (chunk_setup p).max_chunk_size ≤ s
              ∧ s < min ((c' + 1) * (chunk_setup p).max_chunk_size) (chunk_setup p).n_sites)))
      ∧ (∀ s, s < p.n_sites ↔ ∃ c, c < (chunk_setup p).n_chunks
          ∧ c * (chunk_setup p).max_chunk_size ≤ s
          ∧ s < min ((c + 1) * (chunk_setup p).max_chunk_size) (chunk_setup p).n_sites)
      ∧ ((chunk_setup p).n_chunks - 1) * (chunk_setup p).max_chunk_size < p.n_sites
      ∧ p.n_sites ≤ (chunk_setup p).n_chunks * (chunk_setup p).max_chunk_size
      ∧ 1 ≤ (chunk_setup p).n_chunks
      ∧ (chunk_setup p).n_chunks ≤ p.n_sites := by
  have hm : 0 < min p.max_chunk_size p.n_sites := by
    rw [lt_min_iff]; exact ⟨hc, hs⟩
  have hmq : (0 : ℚ) < ((min p.max_chunk_size p.n_sites : ℕ) : ℚ) := by exact_mod_cast hm
  have hk : (chunk_setup p).n_chunks
      = ⌈(p.n_sites : ℚ) / (min p.max_chunk_size p.n_sites : ℕ)⌉₊ := by
    rw [chunk_setup_n_chunks]
    exact ceil_div_double_exact _ _ hm (min_le_right _ _) hs53
  have hpos : 1 ≤ (chunk_setup p).n_chunks := by
    rw [chunk_setup_n_chunks]
    exact ceil_div_double_pos _ _ hs hm (lt_of_le_of_lt hs53 (by norm_num))
  have hhi : p.n_sites ≤ (chunk_setup p).n_chunks * min p.max_chunk_size p.n_sites := by
    have h : (p.n_sites : ℚ) / (min p.max_chunk_size p.n_sites : ℕ)
        ≤ ((chunk_setup p).n_chunks : ℚ) := by rw [hk]; exact Nat.le_ceil _
    rw [div_le_iff₀ hmq] at h
    exact_mod_cast h
  have hlo : ((chunk_setup p).n_chunks - 1) * min p.max_chunk_size p.n_sites < p.n_sites := by
    have h : (((chunk_setup p).n_chunks - 1 : ℕ) : ℚ)
        < (p.n_sites : ℚ) / (min p.max_chunk_size p.n_sites : ℕ) := by
      rw [← Nat.lt_ceil, ← hk]; omega
    rw [lt_div_iff₀ hmq] at h
    exact_mod_cast h
  have hle : (chunk_setup p).n_chunks ≤ p.n_sites := by
    have : ((chunk_setup p).n_chunks - 1) * 1
        ≤ ((chunk_setup p).n_chunks - 1) * min p.max_chunk_size p.n_sites :=
      Nat.mul_le_mul_left _ hm
    omega
  have hpart := ranges_partition p.n_sites (min p.max_chunk_size p.n_sites)
    (chunk_setup p).n_chunks hm hlo hhi
  rw [chunk_setup_max_chunk_size, chunk_setup_n_sites]
  exact ⟨hpart.1, hpart.2.1, hpart.2.2, hlo, hhi, hpos, hle⟩

/-- Witness of C2 (amended): ten sites in chunks of at most three. -/
theorem chunks_partition_sites_witness :
    ({ small_pars with n_sites := 10, max_chunk_size := 3 } : params).n_sites ≤ 2 ^ 53
      ∧ ∀ s, s < 10 ↔ ∃ c,
          c < (chunk_setup { small_pars with n_sites := 10, max_chunk_size := 3 }).n_chunks
          ∧ c * (chunk_setup { small_pars with n_sites := 10, max_chunk_size := 3 }).max_chunk_size
            ≤ s
          ∧ s < min
            ((c + 1)
              * (chunk_setup { small_pars with n_sites := 10, max_chunk_size := 3 }).max_chunk_size)
            (chunk_setup { small_pars with n_sites := 10, max_chunk_size := 3 }).n_sites :=
  ⟨by decide,
    (chunks_partition_sites { small_pars with n_sites := 10, max_chunk_size := 3 }
      (by decide) (by decide) (by decide)).2.2.1⟩

/-- Counterexample to C2 as stated: with `n_sites = 2 ^ 53 + 1` and
`max_chunk_size = 1` the computed `n_chunks` is `2 ^ 53`, so
`n_chunks * m < n_sites` and the last site, `2 ^ 53`, lies in no range. -/
theorem chunks_miss_last_site_above_two_pow_53 :
    (chunk_setup { small_pars with n_sites := 2 ^ 53 + 1, max_chunk_size := 1 }).n_chunks
        * (chunk_setup { small_pars with n_sites := 2 ^ 53 + 1, max_chunk_size := 1 }).max_chunk_size
        < (chunk_setup { small_pars with n_sites := 2 ^ 53 + 1, max_chunk_size := 1 }).n_sites
      ∧ ¬ ∃ c,
          c < (chunk_setup { small_pars with n_sites := 2 ^ 53 + 1, max_chunk_size := 1 }).n_chunks
          ∧ c * (chunk_setup
              { small_pars with n_sites := 2 ^ 53 + 1, max_chunk_size := 1 }).max_chunk_size
            ≤ 2 ^ 53
          ∧ 2 ^ 53 < min
            ((c + 1) * (chunk_setup
              { small_pars with n_sites := 2 ^ 53 + 1, max_chunk_size := 1 }).max_chunk_size)
            (chunk_setup { small_pars with n_sites := 2 ^ 53 + 1, max_chunk_size := 1 }).n_sites := by
  have hk : (chunk_setup { small_pars with n_sites := 2 ^ 53 + 1, max_chunk_size := 1 }).n_chunks
      = 2 ^ 53 := by
    rw [chunk_setup_n_chunks]
    exact ceil_div_double_two_pow_53_succ
  have hm : (chunk_setup { small_pars with n_sites := 2 ^ 53 + 1, max_chunk_size := 1 }).max_chunk_size
      = 1 := by
    rw [chunk_setup_max_chunk_size]; decide
  have hn : (chunk_setup { small_pars with n_sites := 2 ^ 53 + 1, max_chunk_size := 1 }).n_sites
      = 2 ^ 53 + 1 := chunk_setup_n_sites _
  refine ⟨?_, ?_⟩
  · rw [hk, hm, hn]; decide
  · rintro ⟨c, hc, -, hhi⟩
    rw [hk] at hc
    rw [hm, lt_min_iff] at hhi
    omega

/-- C4. After the chunk-size adjustment `max_chunk_size` is
`min max_chunk_size n_sites`: lowered to `n_sites` when it exceeds `n_sites`,
unchanged otherwise; `n_sites` is not modified; and when the configured
`max_chunk_size` is at least `n_sites` the analysis runs in exactly one chunk. -/
theorem chunk_size_clamped (p : params) (hs : 0 < p.n_sites) :
    (adjust_chunk_size p).max_chunk_size = min p.max_chunk_size p.n_sites
      ∧ (p.n_sites < p.max_chunk_size → (adjust_chunk_size p).max_chunk_size = p.n_sites)
      ∧ (¬ p.n_sites < p.max_chunk_size →
          (adjust_chunk_size p).max_chunk_size = p.max_chunk_size)
      ∧ (adjust_chunk_size p).n_sites = p.n_sites
      ∧ (chunk_setup p).max_chunk_size = min p.max_chunk_size p.n_sites
      ∧ (chunk_setup p).n_sites = p.n_sites
      ∧ (p.n_sites ≤ p.max_chunk_size → (chunk_setup p).n_chunks = 1) := by
  have hadj : (adjust_chunk_size p).max_chunk_size = min p.max_chunk_size p.n_sites := by
    unfold adjust_chunk_size; split_ifs <;> simp <;> omega
  refine ⟨hadj, ?_, ?_, ?_, chunk_setup_max_chunk_size p, chunk_setup_n_sites p, ?_⟩
  · intro h; rw [hadj]; exact min_eq_right h.le
  · intro h; rw [hadj]; exact min_eq_left (not_lt.mp h)
  · unfold adjust_chunk_size; split_ifs <;> rfl
  · intro h
    rw [chunk_setup_n_chunks, min_eq_right h]
    exact ceil_div_double_self _ hs

/-- Witness of C4: a chunk size of 100000 for ten sites. -/
theorem chunk_size_clamped_witness :
    0 < ({ small_pars with n_sites := 10, max_chunk_size := 100000 } : params).n_sites
      ∧ (adjust_chunk_size
          { small_pars with n_sites := 10, max_chunk_size := 100000 }).max_chunk_size = 10
      ∧ (chunk_setup { small_pars with n_sites := 10, max_chunk_size := 100000 }).n_chunks = 1 :=
  ⟨by decide,
    (chunk_size_clamped { small_pars with n_sites := 10, max_chunk_size := 100000 }
      (by decide)).1.trans (by decide),
    (chunk_size_clamped { small_pars with n_sites := 10, max_chunk_size := 100000 }
      (by decide)).2.2.2.2.2.2 (by decide)⟩

/-! ## Claims on the argument checks -/

theorem strrchr_eq_none_iff (s : CStr) (c : Char) : strrchr s c = none ↔ c ∉ s := by
  induction s with
  | nil => simp [strrchr]
  | cons x xs ih =>
    unfold strrchr
    cases h : strrchr xs c with
    | some t =>
      have : c ∈ xs := by
        by_contra hc
        rw [ih.mpr hc] at h
        exact Option.noConfusion h
      simp [this]
    | none =>
      have hc : c ∉ xs := ih.mp h
      by_cases hx : x = c
      · simp [hx]
      · simp [hx, hc, Ne.symm hx]

theorem strrchr_append (pre rest : CStr) (c : Char) (h : c ∉ rest) :
    strrchr (pre ++ c :: rest) c = some (c :: rest) := by
  induction pre with
  | nil =>
    have hnone : strrchr rest c = none := (strrchr_eq_none_iff rest c).mpr h
    simp [strrchr, hnone]
  | cons x xs ih =>
    simp [strrchr, ih]

theorem strrchr_eq_some (s : CStr) (c : Char) (t : CStr) (h : strrchr s c = some t) :
    ∃ pre rest, s = pre ++ c :: rest ∧ c ∉ rest ∧ t = c :: rest := by
  induction s generalizing t with
  | nil => simp [strrchr] at h
  | cons x xs ih =>
    unfold strrchr at h
    cases hxs : strrchr xs c with
    | some u =>
      rw [hxs] at h
      obtain ⟨pre, rest, h1, h2, h3⟩ := ih u hxs
      refine ⟨x :: pre, rest, by rw [h1]; rfl, h2, ?_⟩
      rw [← h3]
      exact (Option.some.inj h).symm
    | none =>
      rw [hxs] at h
      by_cases hx : x = c
      · simp only [hx, if_true] at h
        refine ⟨[], xs, by simp [hx], (strrchr_eq_none_iff xs c).mp hxs, ?_⟩
        exact (Option.some.inj h).symm
      · simp [hx] at h

theorem check_arguments_of_null (p : params) (h : p.in_glf = none) :
    check_arguments p = Except.error "GL input file (-glf) missing!" := by
  unfold check_arguments error; rw [h]

theorem check_arguments_of_no_dot (p : params) (path : CStr) (h : p.in_glf = some path)
    (hty : strrchr path '.' = none) :
    check_arguments p = Except.error "invalid file type!" := by
  unfold check_arguments error; rw [h]; simp only [hty]

theorem check_arguments_of_type (p : params) (path t : CStr) (h : p.in_glf = some path)
    (hty : strrchr path '.' = some t) :
    check_arguments p =
      if p.out_file = none then Except.error "output file (-out) missing!"
      else if p.n_ind = 0 then Except.error "number of individuals (-n_ind) missing!"
      else if p.n_sites = 0 then Except.error "number of sites (-n_sites) missing!"
      else Except.ok { p with in_glf_type := some t } := by
  unfold check_arguments error; rw [h]; simp only [hty]

/-- C6. The required-parameter checks raise a fatal error if and only if the
GL input path is missing, or it contains no `'.'`, or the output path is
missing, or `n_ind` is 0, or `n_sites` is 0; otherwise they raise nothing and
change no parameter other than recording the input type, the suffix of the
input path that starts at its last `'.'`. -/
theorem check_arguments_spec (p : params) :
    ((∃ msg, check_arguments p = Except.error msg) ↔
        (p.in_glf = none ∨ (∃ path, p.in_glf = some path ∧ '.' ∉ path) ∨ p.out_file = none
          ∨ p.n_ind = 0 ∨ p.n_sites = 0))
      ∧ (¬ (p.in_glf = none ∨ (∃ path, p.in_glf = some path ∧ '.' ∉ path) ∨ p.out_file = none
          ∨ p.n_ind = 0 ∨ p.n_sites = 0) →
        ∃ pre rest, p.in_glf = some (pre ++ '.' :: rest) ∧ '.' ∉ rest
          ∧ check_arguments p = Except.ok { p with in_glf_type := some ('.' :: rest) }) := by
  rcases hglf : p.in_glf with _ | path
  · rw [check_arguments_of_null p hglf]
    simp
  · rcases hty : strrchr path '.' with _ | t
    · have hno : '.' ∉ path := (strrchr_eq_none_iff path '.').mp hty
      rw [check_arguments_of_no_dot p path hglf hty]
      simp [hno]
    · obtain ⟨pre, rest, h1, h2, h3⟩ := strrchr_eq_some path '.' t hty
      have hdot : '.' ∈ path := by
        by_contra hc
        rw [(strrchr_eq_none_iff path '.').mpr hc] at hty
        exact Option.noConfusion hty
      rw [check_arguments_of_type p path t hglf hty]
      constructor
      · simp only [hdot, not_true_eq_false, and_false, exists_false, false_or, reduceCtorEq,
          Option.some.injEq, exists_eq_left']
        split_ifs <;> simp_all
      · intro hgood
        simp only [hdot, not_true_eq_false, and_false, exists_false, false_or, reduceCtorEq,
          Option.some.injEq, exists_eq_left', not_or] at hgood
        refine ⟨pre, rest, by rw [h1], h2, ?_⟩
        simp [hgood.1, hgood.2.1, hgood.2.2, h3, hglf]

/-- Witness of C6: the configuration `small_pars` passes the checks, which
record `".glf"` as its input type. -/
theorem check_arguments_spec_witness :
    ∃ pre rest, small_pars.in_glf = some (pre ++ '.' :: rest) ∧ '.' ∉ rest
      ∧ check_arguments small_pars
        = Except.ok { small_pars with in_glf_type := some ('.' :: rest) } :=
  (check_arguments_spec small_pars).2 (by decide)

/-! ## Claims on the input-file checks -/

theorem div_div_div_eq_iff (b n s : ℕ) (hn : 0 < n) :
    b / 8 / n / 3 = s ↔ 24 * n * s ≤ b ∧ b < 24 * n * (s + 1) := by
  have hk : 0 < 24 * n := by omega
  have hdiv : b / 8 / n / 3 = b / (24 * n) := by
    rw [Nat.div_div_eq_div_mul, Nat.div_div_eq_div_mul]
    congr 1
    ring
  rw [hdiv]
  constructor
  · intro h
    subst h
    have h1 := Nat.mul_div_le b (24 * n)
    have h2 := Nat.lt_mul_div_succ b hk
    exact ⟨h1, h2⟩
  · rintro ⟨h1, h2⟩
    apply le_antisymm
    · rw [← Nat.lt_succ_iff, Nat.div_lt_iff_lt_mul hk]
      rw [mul_comm]; exact h2
    · rw [Nat.le_div_iff_mul_le hk]
      rw [mul_comm]; exact h1

theorem check_input_files_ok_iff (st_size : ℕ) (p : params) :
    check_input_files st_size p = Except.ok () ↔
      ¬ (1 ≤ p.verbose ∧ p.in_glf_type = some dot_glf ∧ p.n_sites ≠ st_size / 8 / p.n_ind / 3) := by
  unfold check_input_files error
  split_ifs <;> simp_all

/-- C10. With verbosity at least 1 and input type `".glf"` the file-size check
accepts a file of `st_size` bytes if and only if
`st_size / 8 / n_ind / 3 = n_sites` (integer divisions), which for `n_ind > 0`
is `24 * n_ind * n_sites ≤ st_size < 24 * n_ind * (n_sites + 1)`; so every size
in that interval is accepted, for instance `24 * n_ind * n_sites + 1`; with
verbosity 0 the check is not performed. -/
theorem size_check_accepts_interval (st_size : ℕ) (p : params) (hind : 0 < p.n_ind)
    (hty : p.in_glf_type = some dot_glf) :
    (1 ≤ p.verbose →
        (check_input_files st_size p = Except.ok () ↔ st_size / 8 / p.n_ind / 3 = p.n_sites))
      ∧ (st_size / 8 / p.n_ind / 3 = p.n_sites ↔
          24 * p.n_ind * p.n_sites ≤ st_size ∧ st_size < 24 * p.n_ind * (p.n_sites + 1))
      ∧ (1 ≤ p.verbose → ∀ b, 24 * p.n_ind * p.n_sites ≤ b → b < 24 * p.n_ind * (p.n_sites + 1) →
          check_input_files b p = Except.ok ())
      ∧ (1 ≤ p.verbose → check_input_files (24 * p.n_ind * p.n_sites + 1) p = Except.ok ())
      ∧ (p.verbose < 1 → check_input_files st_size p = Except.ok ()) := by
  refine ⟨?_, div_div_div_eq_iff _ _ _ hind, ?_, ?_, ?_⟩
  · intro hv
    rw [check_input_files_ok_iff]
    simp only [hv, hty, true_and, ne_eq, not_not]
    exact eq_comm
  · intro hv b h1 h2
    rw [check_input_files_ok_iff]
    simp only [hv, hty, true_and, ne_eq, not_not]
    exact ((div_div_div_eq_iff b _ _ hind).mpr ⟨h1, h2⟩).symm
  · intro hv
    rw [check_input_files_ok_iff]
    simp only [hv, hty, true_and, ne_eq, not_not]
    refine ((div_div_div_eq_iff _ _ _ hind).mpr ⟨by omega, ?_⟩).symm
    nlinarith
  · intro hv
    rw [check_input_files_ok_iff]
    intro h
    omega

/-- Witness of C10: one individual, one site, verbosity 1; a file of 25 bytes
passes the check. -/
theorem size_check_accepts_interval_witness :
    0 < ({ small_pars with in_glf_type := some dot_glf, verbose := 1 } : params).n_ind
      ∧ check_input_files 25 { small_pars with in_glf_type := some dot_glf, verbose := 1 }
        = Except.ok () :=
  ⟨by decide,
    (size_check_accepts_interval 25 { small_pars with in_glf_type := some dot_glf, verbose := 1 }
      (by decide) rfl).2.2.2.1 (by decide)⟩

/-! ## The run: start-up and analysis -/

theorem read_sites_log (st_size n_ind todo pos : ℕ) :
    ∀ e ∈ (read_sites st_size n_ind todo pos).1, e = Event.fread := by
  induction todo generalizing pos with
  | zero => simp [read_sites]
  | succ k ih =>
    unfold read_sites
    split_ifs with h
    · simp
    · intro e he
      simp only [List.mem_cons] at he
      rcases he with he | he
      · exact he
      · exact ih _ e he

theorem read_sites_ok_iff (st_size n_ind todo pos : ℕ) (hn : 0 < n_ind) :
    (read_sites st_size n_ind todo pos).2 = Except.ok ()
      ↔ todo = 0 ∨ pos + todo * (n_ind * 3 * 8) ≤ st_size := by
  induction todo generalizing pos with
  | zero => simp [read_sites]
  | succ k ih =>
    unfold read_sites fread error
    by_cases h : pos + n_ind * 3 * 8 ≤ st_size
    · have hfull : min (n_ind * 3) ((st_size - pos) / 8) = n_ind * 3 := by
        apply min_eq_left
        exact (Nat.le_div_iff_mul_le (by norm_num)).mpr (by omega)
      simp only [hfull, ne_eq, not_true_eq_false, if_false]
      rw [ih]
      constructor
      · rintro (h0 | h1)
        · subst h0; right; omega
        · right; rw [Nat.add_mul]; omega
      · rintro (h0 | h1)
        · omega
        · right; rw [Nat.add_mul] at h1; omega
    · have hshort : min (n_ind * 3) ((st_size - pos) / 8) ≠ n_ind * 3 := by
        intro hmin
        have hle : n_ind * 3 ≤ (st_size - pos) / 8 := by
          rw [← hmin]; exact min_le_right _ _
        have hle8 : n_ind * 3 * 8 ≤ st_size - pos :=
          (Nat.le_div_iff_mul_le (by norm_num)).mp hle
        omega
      simp only [hshort, ne_eq, not_false_eq_true, if_true, reduceCtorEq, false_iff, not_or]
      refine ⟨trivial, ?_⟩
      rw [Nat.add_mul]
      omega

theorem read_sites_result (st_size n_ind todo pos : ℕ) :
    (read_sites st_size n_ind todo pos).2 = Except.ok ()
      ∨ (read_sites st_size n_ind todo pos).2 = Except.error "cannot read GLF file!" := by
  induction todo generalizing pos with
  | zero => left; rfl
  | succ k ih =>
    unfold read_sites error
    split_ifs with h
    · right; rfl
    · exact ih _

theorem chunk_setup_frame (p : params) :
    (chunk_setup p).in_glf_type = p.in_glf_type ∧ (chunk_setup p).n_ind = p.n_ind
      ∧ (chunk_setup p).verbose = p.verbose ∧ (chunk_setup p).fast_lkl = p.fast_lkl
      ∧ (chunk_setup p).init_values = p.init_values := by
  unfold chunk_setup adjust_threads calc_n_chunks adjust_chunk_size
  split_ifs <;> exact ⟨rfl, rfl, rfl, rfl, rfl⟩

/-- The four ways start-up can go. -/
theorem start_up_cases (use_bgzf : Bool) (st_size : ℕ) (p : params) :
    (∃ msg, check_arguments p = Except.error msg
        ∧ start_up use_bgzf st_size p = ⟨[], Except.error msg⟩)
      ∨ (∃ p1 msg, check_arguments p = Except.ok p1
        ∧ check_input_files st_size p1 = Except.error msg
        ∧ start_up use_bgzf st_size p = ⟨[Event.stat], Except.error msg⟩)
      ∨ (∃ p1 msg, check_arguments p = Except.ok p1
        ∧ check_input_files st_size p1 = Except.ok ()
        ∧ (open_input use_bgzf st_size (chunk_setup p1)).2 = Except.error msg
        ∧ start_up use_bgzf st_size p
          = ⟨Event.stat :: (open_input use_bgzf st_size (chunk_setup p1)).1, Except.error msg⟩)
      ∨ (∃ p1, check_arguments p = Except.ok p1
        ∧ check_input_files st_size p1 = Except.ok ()
        ∧ (open_input use_bgzf st_size (chunk_setup p1)).2 = Except.ok ()
        ∧ start_up use_bgzf st_size p
          = ⟨Event.stat :: (open_input use_bgzf st_size (chunk_setup p1)).1,
              Except.ok (chunk_setup p1)⟩) := by
  cases h1 : check_arguments p with
  | error msg => left; exact ⟨msg, rfl, by unfold start_up; simp only [h1]⟩
  | ok p1 =>
    right
    cases h2 : check_input_files st_size p1 with
    | error msg => left; exact ⟨p1, msg, rfl, h2, by unfold start_up; simp only [h1, h2]⟩
    | ok u =>
      right
      cases h3 : (open_input use_bgzf st_size (chunk_setup p1)).2 with
      | error msg =>
        left; exact ⟨p1, msg, rfl, h2, h3, by unfold start_up; simp only [h1, h2, h3]⟩
      | ok v => right; exact ⟨p1, rfl, h2, h3, by unfold start_up; simp only [h1, h2, h3]⟩

theorem open_input_log (use_bgzf : Bool) (st_size : ℕ) (p : params) :
    ∀ e ∈ (open_input use_bgzf st_size p).1, e = Event.open_input ∨ e = Event.fread := by
  unfold open_input
  split_ifs
  · simp
  · simp
  · simp
  · intro e he
    simp only [List.mem_cons] at he
    rcases he with he | he
    · left; exact he
    · right; exact read_sites_log _ _ _ _ e he

theorem start_up_log (use_bgzf : Bool) (st_size : ℕ) (p : params) :
    ∀ e ∈ (start_up use_bgzf st_size p).log,
      e = Event.stat ∨ e = Event.open_input ∨ e = Event.fread := by
  intro e he
  rcases start_up_cases use_bgzf st_size p with ⟨msg, -, h⟩ | ⟨p1, msg, -, -, h⟩
    | ⟨p1, msg, -, -, -, h⟩ | ⟨p1, -, -, -, h⟩ <;> rw [h] at he
  · simp at he
  · simp only [List.mem_singleton] at he; left; exact he
  · simp only [List.mem_cons] at he
    rcases he with he | he
    · left; exact he
    · right; exact open_input_log _ _ _ e he
  · simp only [List.mem_cons] at he
    rcases he with he | he
    · left; exact he
    · right; exact open_input_log _ _ _ e he

theorem main_run_result (use_bgzf : Bool) (st_size : ℕ) (p : params) :
    (main_run use_bgzf st_size p).result = (start_up use_bgzf st_size p).result := by
  unfold main_run
  cases h : (start_up use_bgzf st_size p).result <;> rfl

theorem main_run_log_of_error (use_bgzf : Bool) (st_size : ℕ) (p : params) (msg : String)
    (h : (start_up use_bgzf st_size p).result = Except.error msg) :
    (main_run use_bgzf st_size p).log = (start_up use_bgzf st_size p).log := by
  unfold main_run
  simp only [h]

theorem main_run_log_of_ok (use_bgzf : Bool) (st_size : ℕ) (p q : params)
    (h : (start_up use_bgzf st_size p).result = Except.ok q) :
    (main_run use_bgzf st_size p).log
      = (start_up use_bgzf st_size p).log ++ analyze_data q := by
  unfold main_run
  simp only [h]

/-- A run that fails at start-up analyses nothing. -/
theorem no_analysis_of_error (use_bgzf : Bool) (st_size : ℕ) (p : params) (msg : String)
    (h : (start_up use_bgzf st_size p).result = Except.error msg) :
    (main_run use_bgzf st_size p).result = Except.error msg
      ∧ Event.initial_lkl ∉ (main_run use_bgzf st_size p).log
      ∧ Event.do_EM ∉ (main_run use_bgzf st_size p).log := by
  rw [main_run_result, main_run_log_of_error _ _ _ msg h]
  refine ⟨h, ?_, ?_⟩
  · intro hmem
    rcases start_up_log _ _ _ _ hmem with h' | h' | h' <;> exact Event.noConfusion h'
  · intro hmem
    rcases start_up_log _ _ _ _ hmem with h' | h' | h' <;> exact Event.noConfusion h'

theorem open_input_chunk_setup (use_bgzf : Bool) (st_size : ℕ) (p : params) :
    open_input use_bgzf st_size (chunk_setup p) = open_input use_bgzf st_size p := by
  unfold open_input
  rw [(chunk_setup_frame p).1, (chunk_setup_frame p).2.1, chunk_setup_n_sites]

theorem check_arguments_ok_inv (p p1 : params) (h : check_arguments p = Except.ok p1) :
    ∃ path t, p.in_glf = some path ∧ strrchr path '.' = some t
      ∧ p1 = { p with in_glf_type := some t }
      ∧ p.out_file ≠ none ∧ p.n_ind ≠ 0 ∧ p.n_sites ≠ 0 := by
  rcases hglf : p.in_glf with _ | path
  · rw [check_arguments_of_null p hglf] at h
    exact Except.noConfusion h
  · rcases hty : strrchr path '.' with _ | t
    · rw [check_arguments_of_no_dot p path hglf hty] at h
      exact Except.noConfusion h
    · rw [check_arguments_of_type p path t hglf hty] at h
      split_ifs at h with ha hb hc
      refine ⟨path, t, rfl, hty, ?_, ha, hb, hc⟩
      rw [(Except.ok.inj h).symm, hglf]

theorem check_arguments_ok (p : params) (path t : CStr) (hglf : p.in_glf = some path)
    (hty : strrchr path '.' = some t) (hout : p.out_file ≠ none) (hind : p.n_ind ≠ 0)
    (hsites : p.n_sites ≠ 0) :
    check_arguments p = Except.ok { p with in_glf_type := some t } := by
  rw [check_arguments_of_type p path t hglf hty, if_neg hout, if_neg hind, if_neg hsites]

theorem start_up_of_ok (use_bgzf : Bool) (st_size : ℕ) (p p1 : params)
    (h1 : check_arguments p = Except.ok p1) (h2 : check_input_files st_size p1 = Except.ok ())
    (h3 : (open_input use_bgzf st_size p1).2 = Except.ok ()) :
    start_up use_bgzf st_size p
      = ⟨Event.stat :: (open_input use_bgzf st_size p1).1, Except.ok (chunk_setup p1)⟩ := by
  unfold start_up
  simp only [h1, h2, open_input_chunk_setup, h3]

/-- The fatal errors that reject an input for its type. -/
theorem type_error_of_start_up (use_bgzf : Bool) (st_size : ℕ) (p : params) (msg : String)
    (hmsg : msg = "Standard library only supports UNCOMPRESSED GLF files!"
      ∨ msg = "BGZF library only supports BGZIP files!" ∨ msg = "invalid file type!")
    (h : (start_up use_bgzf st_size p).result = Except.error msg) :
    ∀ path, p.in_glf = some path →
      strrchr path '.' ≠ some (if use_bgzf then dot_bgz else dot_glf) := by
  intro path hglf hty
  rcases start_up_cases use_bgzf st_size p with ⟨m, h1, hs⟩ | ⟨p1, m, h1, h2, hs⟩
    | ⟨p1, m, h1, h2, h3, hs⟩ | ⟨p1, h1, h2, h3, hs⟩
  · rw [hs] at h
    have hm : m = msg := Except.error.inj h
    subst hm
    rw [check_arguments_of_type p path _ hglf hty] at h1
    split_ifs at h1
    · have := Except.error.inj h1
      subst this
      revert hmsg; decide
    · have := Except.error.inj h1
      subst this
      revert hmsg; decide
    · have := Except.error.inj h1
      subst this
      revert hmsg; decide
  · rw [hs] at h
    have hm : m = msg := Except.error.inj h
    subst hm
    unfold check_input_files error at h2
    split_ifs at h2
    have := Except.error.inj h2
    subst this
    revert hmsg; decide
  · rw [hs] at h
    have hm : m = msg := Except.error.inj h
    subst hm
    obtain ⟨path', t, hglf', hty', hp1, -, -, -⟩ := check_arguments_ok_inv p p1 h1
    rw [hglf] at hglf'
    have hpath : path = path' := Option.some.inj hglf'
    subst hpath
    rw [hty] at hty'
    have ht : t = (if use_bgzf then dot_bgz else dot_glf) := (Option.some.inj hty').symm
    have htype : p1.in_glf_type = some (if use_bgzf then dot_bgz else dot_glf) := by
      rw [hp1, ht]
    rw [open_input_chunk_setup] at h3
    unfold open_input error at h3
    cases use_bgzf with
    | true =>
      simp only [if_true] at h3 htype
      rw [if_neg (not_not.mpr htype)] at h3
      exact Except.noConfusion h3
    | false =>
      simp only [Bool.false_eq_true, if_false] at h3 htype
      rw [if_neg (not_not.mpr htype)] at h3
      rcases read_sites_result st_size p1.n_ind p1.n_sites 0 with hr | hr
      · rw [hr] at h3; exact Except.noConfusion h3
      · rw [hr] at h3
        have := Except.error.inj h3
        subst this
        revert hmsg; decide
  · rw [hs] at h
    exact Except.noConfusion h

theorem start_up_type_mismatch (use_bgzf : Bool) (st_size : ℕ) (p : params) (path : CStr)
    (hglf : p.in_glf = some path)
    (hty : strrchr path '.' ≠ some (if use_bgzf then dot_bgz else dot_glf)) :
    (∃ msg, (start_up use_bgzf st_size p).result = Except.error msg)
      ∧ Event.open_input ∉ (start_up use_bgzf st_size p).log
      ∧ Event.fread ∉ (start_up use_bgzf st_size p).log := by
  rcases start_up_cases use_bgzf st_size p with ⟨m, h1, hs⟩ | ⟨p1, m, h1, h2, hs⟩
    | ⟨p1, m, h1, h2, h3, hs⟩ | ⟨p1, h1, h2, h3, hs⟩
  · rw [hs]; exact ⟨⟨m, rfl⟩, by simp, by simp⟩
  · rw [hs]; exact ⟨⟨m, rfl⟩, by simp, by simp⟩
  · rw [hs]
    refine ⟨⟨m, rfl⟩, ?_⟩
    obtain ⟨path', t, hglf', hty', hp1, -, -, -⟩ := check_arguments_ok_inv p p1 h1
    rw [hglf] at hglf'
    have hpath : path = path' := Option.some.inj hglf'
    subst hpath
    have htype : p1.in_glf_type ≠ some (if use_bgzf then dot_bgz else dot_glf) := by
      rw [hp1]; simp only; rw [← hty']; exact hty
    rw [open_input_chunk_setup]
    unfold open_input
    cases use_bgzf with
    | true =>
      simp only [if_true] at htype ⊢
      rw [if_pos htype]
      simp
    | false =>
      simp only [Bool.false_eq_true, if_false] at htype ⊢
      rw [if_pos htype]
      simp
  · exfalso
    obtain ⟨path', t, hglf', hty', hp1, -, -, -⟩ := check_arguments_ok_inv p p1 h1
    rw [hglf] at hglf'
    have hpath : path = path' := Option.some.inj hglf'
    subst hpath
    have htype : p1.in_glf_type ≠ some (if use_bgzf then dot_bgz else dot_glf) := by
      rw [hp1]; simp only; rw [← hty']; exact hty
    rw [open_input_chunk_setup] at h3
    unfold open_input error at h3
    cases use_bgzf with
    | true =>
      simp only [if_true] at htype h3
      rw [if_pos htype] at h3
      exact Except.noConfusion h3
    | false =>
      simp only [Bool.false_eq_true, if_false] at htype h3
      rw [if_pos htype] at h3
      exact Except.noConfusion h3

/-- C7. For an input path whose suffix from its last `'.'` is `'.' :: rest`:
if the suffix is not `".glf"` with the standard back-end (`".bgz"` with the
BGZF back-end) the run ends in a fatal error and the input file is neither
opened nor read; if it is, the run is not rejected by any of the file-type
errors. Holds for every verbosity and file size. -/
theorem type_checked_before_open (use_bgzf : Bool) (st_size : ℕ) (p : params)
    (pre rest : CStr) (hglf : p.in_glf = some (pre ++ '.' :: rest)) (hrest : '.' ∉ rest)
    (_hchunk : 0 < p.max_chunk_size) :
    ('.' :: rest ≠ (if use_bgzf then dot_bgz else dot_glf) →
        (∃ msg, (main_run use_bgzf st_size p).result = Except.error msg)
          ∧ Event.open_input ∉ (main_run use_bgzf st_size p).log
          ∧ Event.fread ∉ (main_run use_bgzf st_size p).log)
      ∧ ('.' :: rest = (if use_bgzf then dot_bgz else dot_glf) →
        (main_run use_bgzf st_size p).result
            ≠ Except.error "Standard library only supports UNCOMPRESSED GLF files!"
          ∧ (main_run use_bgzf st_size p).result
            ≠ Except.error "BGZF library only supports BGZIP files!"
          ∧ (main_run use_bgzf st_size p).result ≠ Except.error "invalid file type!") := by
  have hty : strrchr (pre ++ '.' :: rest) '.' = some ('.' :: rest) := strrchr_append pre rest '.' hrest
  constructor
  · intro hne
    have hmis : strrchr (pre ++ '.' :: rest) '.' ≠ some (if use_bgzf then dot_bgz else dot_glf) := by
      rw [hty]; intro h; exact hne (Option.some.inj h)
    obtain ⟨⟨msg, hmsg⟩, hopen, hread⟩ := start_up_type_mismatch use_bgzf st_size p _ hglf hmis
    rw [main_run_result, main_run_log_of_error _ _ _ msg hmsg]
    exact ⟨⟨msg, hmsg⟩, hopen, hread⟩
  · intro heq
    rw [main_run_result]
    refine ⟨?_, ?_, ?_⟩
    · intro h
      exact type_error_of_start_up use_bgzf st_size p _ (Or.inl rfl) h _ hglf (by rw [hty, heq])
    · intro h
      exact type_error_of_start_up use_bgzf st_size p _ (Or.inr (Or.inl rfl)) h _ hglf
        (by rw [hty, heq])
    · intro h
      exact type_error_of_start_up use_bgzf st_size p _ (Or.inr (Or.inr rfl)) h _ hglf
        (by rw [hty, heq])

/-- Witness of C7: with the standard back-end the input `a.bgz` is rejected
before it is opened. -/
theorem type_checked_before_open_witness :
    ({ small_pars with in_glf := some (['a'] ++ '.' :: ['b', 'g', 'z']) } : params).in_glf
        = some (['a'] ++ '.' :: ['b', 'g', 'z'])
      ∧ (∃ msg, (main_run false 24
          { small_pars with in_glf := some (['a'] ++ '.' :: ['b', 'g', 'z']) }).result
            = Except.error msg)
      ∧ Event.open_input ∉ (main_run false 24
          { small_pars with in_glf := some (['a'] ++ '.' :: ['b', 'g', 'z']) }).log
      ∧ Event.fread ∉ (main_run false 24
          { small_pars with in_glf := some (['a'] ++ '.' :: ['b', 'g', 'z']) }).log :=
  ⟨rfl,
    (type_checked_before_open false 24
      { small_pars with in_glf := some (['a'] ++ '.' :: ['b', 'g', 'z']) }
      ['a'] ['b', 'g', 'z'] rfl (by decide) (by decide)).1 (by decide)⟩

/-- How start-up ends for a `".glf"` input with the standard back-end. -/
theorem start_up_glf_std (st_size : ℕ) (p : params) (pre : CStr)
    (hglf : p.in_glf = some (pre ++ dot_glf)) (hout : p.out_file ≠ none) (hind : 0 < p.n_ind)
    (hsites : 0 < p.n_sites) :
    (∃ msg, (start_up false st_size p).result = Except.error msg)
      ↔ (st_size < p.n_sites * p.n_ind * 3 * 8
        ∨ (1 ≤ p.verbose ∧ (p.n_sites + 1) * p.n_ind * 3 * 8 ≤ st_size)) := by
  have hty : strrchr (pre ++ dot_glf) '.' = some dot_glf :=
    strrchr_append pre ['g', 'l', 'f'] '.' (by decide)
  have h1 := check_arguments_ok p _ _ hglf hty hout hind.ne' hsites.ne'
  have hdiv := div_div_div_eq_iff st_size p.n_ind p.n_sites hind
  have hread := read_sites_ok_iff st_size p.n_ind p.n_sites 0 hind
  have hopen : open_input false st_size { p with in_glf_type := some dot_glf }
      = (Event.open_input :: (read_sites st_size p.n_ind p.n_sites 0).1,
          (read_sites st_size p.n_ind p.n_sites 0).2) := by
    unfold open_input
    simp
  by_cases hchk : check_input_files st_size { p with in_glf_type := some dot_glf } = Except.ok ()
  · by_cases hrd : (read_sites st_size p.n_ind p.n_sites 0).2 = Except.ok ()
    · have h3 : (open_input false st_size { p with in_glf_type := some dot_glf }).2
          = Except.ok () := by rw [hopen]; exact hrd
      rw [start_up_of_ok false st_size p _ h1 hchk h3]
      rw [check_input_files_ok_iff] at hchk
      simp only [ne_eq, true_and, not_and, not_not] at hchk
      rw [hread] at hrd
      constructor
      · rintro ⟨msg, hmsg⟩; exact Except.noConfusion hmsg
      · rintro (hlt | ⟨hv, hge⟩)
        · exfalso
          rcases hrd with h0 | hle
          · omega
          · have : p.n_sites * (p.n_ind * 3 * 8) = p.n_sites * p.n_ind * 3 * 8 := by ring
            omega
        · exfalso
          have hs := (hdiv.mp (hchk hv).symm).2
          have : 24 * p.n_ind * (p.n_sites + 1) = (p.n_sites + 1) * p.n_ind * 3 * 8 := by ring
          omega
    · constructor
      · intro _
        left
        rw [hread] at hrd
        push_neg at hrd
        have : p.n_sites * (p.n_ind * 3 * 8) = p.n_sites * p.n_ind * 3 * 8 := by ring
        omega
      · intro _
        rcases read_sites_result st_size p.n_ind p.n_sites 0 with hr | hr
        · exact absurd hr hrd
        · refine ⟨"cannot read GLF file!", ?_⟩
          unfold start_up
          simp only [h1, hchk, open_input_chunk_setup, hopen, hr]
  · constructor
    · intro _
      rw [check_input_files_ok_iff] at hchk
      simp only [ne_eq, true_and, not_and, not_not, not_forall, exists_prop] at hchk
      obtain ⟨hv, hne⟩ := hchk
      have hnot : ¬ (24 * p.n_ind * p.n_sites ≤ st_size ∧ st_size < 24 * p.n_ind * (p.n_sites + 1)) :=
        fun h => hne (hdiv.mpr h).symm
      have e1 : 24 * p.n_ind * (p.n_sites + 1) = (p.n_sites + 1) * p.n_ind * 3 * 8 := by ring
      have e2 : 24 * p.n_ind * p.n_sites = p.n_sites * p.n_ind * 3 * 8 := by ring
      rw [e1, e2] at hnot
      by_cases hlt : st_size < p.n_sites * p.n_ind * 3 * 8
      · left; exact hlt
      · right; refine ⟨hv, ?_⟩
        by_contra hc
        exact hnot ⟨not_lt.mp hlt, not_le.mp hc⟩
    · intro _
      cases hc : check_input_files st_size { p with in_glf_type := some dot_glf } with
      | ok u => exact absurd hc hchk
      | error msg =>
        refine ⟨msg, ?_⟩
        unfold start_up
        simp only [h1, hc]

theorem start_up_of_check_error (use_bgzf : Bool) (st_size : ℕ) (p : params) (msg : String)
    (h : check_arguments p = Except.error msg) :
    start_up use_bgzf st_size p = ⟨[], Except.error msg⟩ := by
  unfold start_up
  simp only [h]

/-- A `".glf"` input whose size is too small, or (at verbosity 1 or more) too
large by one site or more, does not pass start-up, with either back-end. -/
theorem start_up_glf_rejected (use_bgzf : Bool) (st_size : ℕ) (p : params) (pre : CStr)
    (hglf : p.in_glf = some (pre ++ dot_glf)) (hind : 0 < p.n_ind) (hsites : 0 < p.n_sites)
    (hsize : st_size < p.n_sites * p.n_ind * 3 * 8
      ∨ (1 ≤ p.verbose ∧ (p.n_sites + 1) * p.n_ind * 3 * 8 ≤ st_size)) :
    ∃ msg, (start_up use_bgzf st_size p).result = Except.error msg := by
  have hty : strrchr (pre ++ dot_glf) '.' = some dot_glf :=
    strrchr_append pre ['g', 'l', 'f'] '.' (by decide)
  cases use_bgzf with
  | true =>
    exact (start_up_type_mismatch true st_size p _ hglf (by rw [hty]; decide)).1
  | false =>
    by_cases hout : p.out_file = none
    · have h1 := check_arguments_of_type p _ _ hglf hty
      rw [if_pos hout] at h1
      rw [start_up_of_check_error _ _ _ _ h1]
      exact ⟨_, rfl⟩
    · exact (start_up_glf_std st_size p pre hglf hout hind hsites).mpr hsize

/-- C5, as amended. For a `".glf"` input, `n_ind > 0` and `n_sites > 0`:
start-up fails with a fatal error before any data is analysed whenever the
file is smaller than `n_sites * n_ind * 3 * 8` bytes (at every verbosity) and,
at verbosity 1 or more, whenever it has `(n_sites + 1) * n_ind * 3 * 8` bytes
or more; with the standard back-end and an output path these are the only
sizes that make start-up fail. -/
theorem glf_size_mismatch_rejected (use_bgzf : Bool) (st_size : ℕ) (p : params) (pre : CStr)
    (hglf : p.in_glf = some (pre ++ dot_glf)) (hind : 0 < p.n_ind) (hsites : 0 < p.n_sites)
    (_hchunk : 0 < p.max_chunk_size) :
    (st_size < p.n_sites * p.n_ind * 3 * 8 →
        (∃ msg, (main_run use_bgzf st_size p).result = Except.error msg)
          ∧ Event.initial_lkl ∉ (main_run use_bgzf st_size p).log
          ∧ Event.do_EM ∉ (main_run use_bgzf st_size p).log)
      ∧ (1 ≤ p.verbose → (p.n_sites + 1) * p.n_ind * 3 * 8 ≤ st_size →
        (∃ msg, (main_run use_bgzf st_size p).result = Except.error msg)
          ∧ Event.initial_lkl ∉ (main_run use_bgzf st_size p).log
          ∧ Event.do_EM ∉ (main_run use_bgzf st_size p).log)
      ∧ (p.out_file ≠ none →
        ((∃ msg, (main_run false st_size p).result = Except.error msg)
          ↔ (st_size < p.n_sites * p.n_ind * 3 * 8
            ∨ (1 ≤ p.verbose ∧ (p.n_sites + 1) * p.n_ind * 3 * 8 ≤ st_size)))) := by
  refine ⟨?_, ?_, ?_⟩
  · intro h
    obtain ⟨msg, hmsg⟩ := start_up_glf_rejected use_bgzf st_size p pre hglf hind hsites (Or.inl h)
    have := no_analysis_of_error use_bgzf st_size p msg hmsg
    exact ⟨⟨msg, this.1⟩, this.2.1, this.2.2⟩
  · intro hv h
    obtain ⟨msg, hmsg⟩ :=
      start_up_glf_rejected use_bgzf st_size p pre hglf hind hsites (Or.inr ⟨hv, h⟩)
    have := no_analysis_of_error use_bgzf st_size p msg hmsg
    exact ⟨⟨msg, this.1⟩, this.2.1, this.2.2⟩
  · intro hout
    rw [main_run_result]
    exact start_up_glf_std st_size p pre hglf hout hind hsites

/-- Witness of C5 (amended): one individual and one site need 24 bytes; a file
of 23 bytes is rejected. -/
theorem glf_size_mismatch_rejected_witness :
    small_pars.in_glf = some (['a'] ++ dot_glf)
      ∧ (∃ msg, (main_run false 23 small_pars).result = Except.error msg)
      ∧ Event.initial_lkl ∉ (main_run false 23 small_pars).log
      ∧ Event.do_EM ∉ (main_run false 23 small_pars).log :=
  ⟨rfl,
    (glf_size_mismatch_rejected false 23 small_pars ['a'] rfl (by decide) (by decide)
      (by decide)).1 (by decide)⟩

theorem check_arguments_small_pars (v : ℤ) (q : Bool) :
    check_arguments { small_pars with verbose := v, quick := q }
      = Except.ok { small_pars with verbose := v, quick := q, in_glf_type := some dot_glf } :=
  check_arguments_ok _ ['a', '.', 'g', 'l', 'f'] dot_glf rfl (by decide)
    (by simp [small_pars]) (by simp [small_pars]) (by simp [small_pars])

/-- Counterexample to C5 as stated: one individual and one site, so the
expected size is 24 bytes. With the standard back-end a `".glf"` file of 48
bytes passes start-up at verbosity 0 and a file of 25 bytes passes it at
verbosity 1; in both runs the data are analysed. -/
theorem glf_size_mismatch_accepted :
    ((∃ q, (main_run false 48 { small_pars with verbose := 0, quick := false }).result
          = Except.ok q)
        ∧ Event.do_EM ∈ (main_run false 48 { small_pars with verbose := 0, quick := false }).log)
      ∧ ((∃ q, (main_run false 25 { small_pars with verbose := 1, quick := false }).result
          = Except.ok q)
        ∧ Event.do_EM ∈ (main_run false 25 { small_pars with verbose := 1, quick := false }).log)
    := by
  have h48 := start_up_of_ok false 48 _ _ (check_arguments_small_pars 0 false) rfl rfl
  have h25 := start_up_of_ok false 25 _ _ (check_arguments_small_pars 1 false) rfl rfl
  refine ⟨⟨?_, ?_⟩, ⟨?_, ?_⟩⟩
  · exact ⟨_, by rw [main_run_result, h48]⟩
  · rw [main_run_log_of_ok _ _ _ _ (by rw [h48])]
    simp [analyze_data]
  · exact ⟨_, by rw [main_run_result, h25]⟩
  · rw [main_run_log_of_ok _ _ _ _ (by rw [h25])]
    simp [analyze_data]

/-! ## Claims on the analysis and the output -/

theorem start_up_ok_frame (use_bgzf : Bool) (st_size : ℕ) (p q : params)
    (h : (start_up use_bgzf st_size p).result = Except.ok q) :
    q.verbose = p.verbose ∧ q.fast_lkl = p.fast_lkl ∧ q.init_values = p.init_values := by
  rcases start_up_cases use_bgzf st_size p with ⟨m, h1, hs⟩ | ⟨p1, m, h1, h2, hs⟩
    | ⟨p1, m, h1, h2, h3, hs⟩ | ⟨p1, h1, h2, h3, hs⟩
  · rw [hs] at h; exact Except.noConfusion h
  · rw [hs] at h; exact Except.noConfusion h
  · rw [hs] at h; exact Except.noConfusion h
  · rw [hs] at h
    have hq : chunk_setup p1 = q := Except.ok.inj h
    obtain ⟨path, t, -, -, hp1, -, -, -⟩ := check_arguments_ok_inv p p1 h1
    have hf := chunk_setup_frame p1
    rw [← hq, hf.2.2.1, hf.2.2.2.1, hf.2.2.2.2, hp1]
    exact ⟨rfl, rfl, rfl⟩

/-- When the initial log-likelihood is computed and reported. -/
theorem initial_lkl_mem_iff (use_bgzf : Bool) (st_size : ℕ) (p : params) :
    Event.initial_lkl ∈ (main_run use_bgzf st_size p).log
      ↔ (∃ q, (main_run use_bgzf st_size p).result = Except.ok q)
        ∧ 1 ≤ p.verbose ∧ p.fast_lkl = false ∧ p.init_values ≠ ['e'] := by
  rw [main_run_result]
  cases h : (start_up use_bgzf st_size p).result with
  | error msg =>
    have := (no_analysis_of_error use_bgzf st_size p msg h).2.1
    simp [this]
  | ok q =>
    rw [main_run_log_of_ok _ _ _ q h]
    obtain ⟨hv, hf, hi⟩ := start_up_ok_frame use_bgzf st_size p q h
    have hstart : Event.initial_lkl ∉ (start_up use_bgzf st_size p).log := by
      intro hmem
      rcases start_up_log _ _ _ _ hmem with h' | h' | h' <;> exact Event.noConfusion h'
    unfold analyze_data
    rw [hv, hf, hi]
    simp only [List.mem_append, hstart, false_or, List.mem_singleton, reduceCtorEq, or_false,
      Except.ok.injEq, exists_eq', true_and]
    split_ifs with hc
    · simp [hc]
    · simp [hc]

theorem check_arguments_quick (p : params) (v : Bool) :
    check_arguments { p with quick := v }
      = match check_arguments p with
        | Except.error msg => Except.error msg
        | Except.ok q => Except.ok { q with quick := v } := by
  unfold check_arguments error
  cases p.in_glf with
  | none => rfl
  | some path =>
    simp only
    cases strrchr path '.' with
    | none => rfl
    | some t =>
      simp only
      split_ifs <;> rfl

theorem chunk_setup_quick (p : params) (v : Bool) :
    chunk_setup { p with quick := v } = { chunk_setup p with quick := v } := by
  unfold chunk_setup adjust_threads calc_n_chunks adjust_chunk_size
  simp only
  split_ifs <;> rfl

/-- The `quick` setting does not change the events of a run. -/
theorem main_run_log_quick (use_bgzf : Bool) (st_size : ℕ) (p : params) (v : Bool) :
    (main_run use_bgzf st_size { p with quick := v }).log
      = (main_run use_bgzf st_size p).log := by
  have hstart : start_up use_bgzf st_size { p with quick := v }
      = ⟨(start_up use_bgzf st_size p).log,
          match (start_up use_bgzf st_size p).result with
          | Except.error msg => Except.error msg
          | Except.ok q => Except.ok { q with quick := v }⟩ := by
    unfold start_up
    rw [check_arguments_quick]
    cases check_arguments p with
    | error msg => rfl
    | ok p1 =>
      simp only
      have h2 : check_input_files st_size { p1 with quick := v }
          = check_input_files st_size p1 := rfl
      rw [h2]
      cases check_input_files st_size p1 with
      | error msg => rfl
      | ok u =>
        simp only
        rw [open_input_chunk_setup, open_input_chunk_setup]
        have h3 : open_input use_bgzf st_size { p1 with quick := v }
            = open_input use_bgzf st_size p1 := rfl
        rw [h3]
        cases (open_input use_bgzf st_size p1).2 with
        | error msg => rfl
        | ok u => simp only [chunk_setup_quick]
  unfold main_run
  rw [hstart]
  cases (start_up use_bgzf st_size p).result with
  | error msg => rfl
  | ok q => rfl

/-- The report of the initial log-likelihood is immediately followed by the
EM loop. -/
theorem initial_lkl_before_do_EM (use_bgzf : Bool) (st_size : ℕ) (p : params)
    (hmem : Event.initial_lkl ∈ (main_run use_bgzf st_size p).log) :
    ∃ l, (main_run use_bgzf st_size p).log = l ++ [Event.initial_lkl, Event.do_EM] := by
  cases h : (start_up use_bgzf st_size p).result with
  | error msg => exact absurd hmem (no_analysis_of_error use_bgzf st_size p msg h).2.1
  | ok q =>
    rw [main_run_log_of_ok _ _ _ q h] at hmem ⊢
    have hstart : Event.initial_lkl ∉ (start_up use_bgzf st_size p).log := by
      intro hm
      rcases start_up_log _ _ _ _ hm with h' | h' | h' <;> exact Event.noConfusion h'
    refine ⟨(start_up use_bgzf st_size p).log, ?_⟩
    unfold analyze_data at hmem ⊢
    split_ifs with hc
    · rfl
    · rw [if_neg hc] at hmem
      simp [hstart] at hmem

/-- C9, as amended. The initial full log-likelihood is computed and reported
before the EM loop starts exactly when start-up succeeds, verbosity is at
least 1, `fast_lkl` is not set and `init_values` is not `"e"`; the `quick`
setting has no influence on it. -/
theorem initial_lkl_guard (use_bgzf : Bool) (st_size : ℕ) (p : params)
    (_hchunk : 0 < p.max_chunk_size) :
    (Event.initial_lkl ∈ (main_run use_bgzf st_size p).log
        ↔ (∃ q, (main_run use_bgzf st_size p).result = Except.ok q)
          ∧ 1 ≤ p.verbose ∧ p.fast_lkl = false ∧ p.init_values ≠ ['e'])
      ∧ (Event.initial_lkl ∈ (main_run use_bgzf st_size p).log →
          ∃ l, (main_run use_bgzf st_size p).log = l ++ [Event.initial_lkl, Event.do_EM])
      ∧ (∀ v, (main_run use_bgzf st_size { p with quick := v }).log
          = (main_run use_bgzf st_size p).log) :=
  ⟨initial_lkl_mem_iff use_bgzf st_size p, initial_lkl_before_do_EM use_bgzf st_size p,
    main_run_log_quick use_bgzf st_size p⟩

/-- Witness of C9 (amended): a run at verbosity 1 reports the initial
log-likelihood whether `quick` is set or not. -/
theorem initial_lkl_guard_witness :
    0 < ({ small_pars with verbose := 1, quick := false } : params).max_chunk_size
      ∧ (main_run false 24
          { { small_pars with verbose := 1, quick := false } with quick := true }).log
        = (main_run false 24 { small_pars with verbose := 1, quick := false }).log :=
  ⟨by decide,
    (initial_lkl_guard false 24 { small_pars with verbose := 1, quick := false }
      (by decide)).2.2 true⟩

/-- Counterexample to C9 as stated: with `quick` set, verbosity 1, `fast_lkl`
not set and `init_values = "r"`, the initial log-likelihood is computed and
reported before the EM loop. -/
theorem initial_lkl_reported_with_quick :
    ({ small_pars with verbose := 1, quick := true } : params).quick = true
      ∧ (main_run false 24 { small_pars with verbose := 1, quick := true }).log
        = [Event.stat, Event.open_input, Event.fread, Event.initial_lkl, Event.do_EM] := by
  have h := start_up_of_ok false 24 _ _ (check_arguments_small_pars 1 true) rfl rfl
  refine ⟨rfl, ?_⟩
  rw [main_run_log_of_ok _ _ _ _ (by rw [h]), h]
  have ha : analyze_data
      (chunk_setup { small_pars with verbose := 1, quick := true, in_glf_type := some dot_glf })
      = [Event.initial_lkl, Event.do_EM] := by
    unfold analyze_data
    have hf := chunk_setup_frame
      { small_pars with verbose := 1, quick := true, in_glf_type := some dot_glf }
    rw [hf.2.2.1, hf.2.2.2.1, hf.2.2.2.2]
    rfl
  rw [ha]
  rfl

/-- The counter of the loop wraps from 65535 to 0: against a bound of 65536,
which the 16-bit `n_ind` cannot hold, the loop would not reach its exit. -/
theorem print_rows_wraps (indF : ℕ → ℚ) :
    ∀ fuel i, i < 65536 → print_rows 65536 indF fuel i = none := by
  intro fuel
  induction fuel with
  | zero => intro i _; rfl
  | succ f ih =>
    intro i hi
    unfold print_rows
    rw [if_pos hi, ih _ (by omega)]
    rfl

end NgsF
